import Mathlib

/-!
Shallow embedding of the `gatsby-plugin-automatic-importer` plugin
(source file `gatsby-node.mjs`) together with theorems about the
claims of its specification.

Modelling conventions:
* JavaScript strings are modelled as `List Char` (`Str`), so that the
  index arithmetic of the source (`indexOf`, `substring`, ...) becomes
  ordinary list `take`/`drop` arithmetic.
* The filesystem is a flat association list from (normalized) paths to
  file contents; directory traversal (`getAllFiles`) is rendered as
  "all stored paths below the root", in storage order (the source sorts
  the traversal result before use, and never depends on `readdirSync`
  enumeration order otherwise).
* The external Babel parser is an external collaborator: it is passed
  in as a function `Parser` producing the list of top-level declaration
  nodes (or `none` when `babel.transformSync` throws).
* The user-supplied `filter` predicate and `fileExtensionsCustom`
  handler are likewise passed in as functions.
* The writers return, besides the updated filesystem, the number of
  `writeFileSync` calls performed (0 or 1), so that write counts of
  whole runs can be stated.
* The purge loop of the source does not terminate on all inputs (see
  the development around `purgeStep`); it is therefore modelled with
  explicit fuel, `none` standing for a non-terminating (or throwing)
  execution.  `'../'.repeat(n)` throws a `RangeError` for `n < 0`; this
  is likewise rendered as `none`.
-/

namespace AutoImporter

abbrev Str := List Char

/-- The JavaScript whitespace characters relevant here (`\s` and `trim`). -/
def isSpaceChar (c : Char) : Bool :=
  c = ' ' || c = '\t' || c = '\n' || c = '\r' || c = '\x0b' || c = '\x0c'

def squote : Char := '\''

def dquote : Char := '\"'

def lbrace : Char := '\x7b'

def rbrace : Char := '\x7d'

def lowerStr (s : Str) : Str := s.map Char.toLower

def trimStartStr (s : Str) : Str := s.dropWhile (fun c => isSpaceChar c)

def trimEndStr (s : Str) : Str := (trimStartStr s.reverse).reverse

/-- JavaScript `String.prototype.trim`. -/
def trimStr (s : Str) : Str := trimEndStr (trimStartStr s)

def startsWithStr (s p : Str) : Bool := p.isPrefixOf s

def endsWithStr (s p : Str) : Bool := p.isSuffixOf s

/-- JavaScript `String.prototype.includes`. -/
def containsStr : Str → Str → Bool
  | [], needle => needle.isEmpty
  | c :: t, needle => needle.isPrefixOf (c :: t) || containsStr t needle

/-- JavaScript `String.prototype.indexOf` (first occurrence). -/
def indexOfStr? : Str → Str → Option Nat
  | [], needle => if needle.isEmpty then some 0 else none
  | c :: t, needle =>
    if needle.isPrefixOf (c :: t) then some 0
    else (indexOfStr? t needle).map (fun i => i + 1)

/-- JavaScript `String.prototype.indexOf` with a start position. -/
def indexOfFrom? (hay needle : Str) (start : Nat) : Option Nat :=
  (indexOfStr? (hay.drop start) needle).map (fun i => i + start)

def charIndexOf? (hay : Str) (c : Char) : Option Nat := indexOfStr? hay [c]

/-- JavaScript `substring(a, b)` for `a ≤ b` (the only way the source uses it). -/
def sliceJS (s : Str) (a b : Nat) : Str := (s.take b).drop a

def repeatStr (s : Str) (n : Nat) : Str := (List.replicate n s).flatten

/-- JavaScript `String.prototype.repeat`: throws `RangeError` on a negative
count, modelled as `none`. -/
def repeatJS (s : Str) (n : Int) : Option Str :=
  if n < 0 then none else some (repeatStr s n.toNat)

/-- JavaScript `Array.prototype.join`. -/
def joinSep (sep : Str) : List Str → Str
  | [] => []
  | [x] => x
  | x :: y :: t => x ++ sep ++ joinSep sep (y :: t)

/-- `purgePath` (gatsby-node.mjs:40-48): backslashes to forward slashes,
then strip every trailing slash. -/
def purgePath (path : Str) : Str :=
  let p := path.map (fun c => if c = '\\' then '/' else c)
  (p.reverse.dropWhile (fun c => c = '/')).reverse

/-- `isFileOfType` (gatsby-node.mjs:83-87).  Note that only the file name is
lowercased; the configured extension is used verbatim. -/
def isFileOfType (file : Str) (types : List Str) : Bool :=
  let f := lowerStr file
  types.any (fun type => endsWithStr f (if startsWithStr type ['.'] then type else '.' :: type))

/-- JavaScript `<` on strings (lexicographic by code unit). -/
def strLt : Str → Str → Bool
  | [], [] => false
  | [], _ :: _ => true
  | _ :: _, [] => false
  | a :: as, b :: bs => if a < b then true else if b < a then false else strLt as bs

/-- `_compareFileOrderString` (gatsby-node.mjs:108-121). -/
def compareFileOrderString (a b : Str) : Int :=
  let aa := lowerStr a
  let bb := lowerStr b
  if strLt bb aa then 1 else if aa = bb then 0 else -1

/-- `_compareFileOrderArray` (gatsby-node.mjs:95-106). -/
def compareFileOrderArray : List Str → List Str → Int
  | [], bs => -(Int.ofNat bs.length)
  | a :: as, [] => Int.ofNat (a :: as).length
  | a :: as, b :: bs =>
    let cmp := compareFileOrderString a b
    if cmp ≠ 0 then cmp else compareFileOrderArray as bs

/-- `compareFileOrder` (gatsby-node.mjs:90-93). -/
def compareFileOrder (a b : Str) : Int :=
  compareFileOrderArray (List.splitOn '/' a) (List.splitOn '/' b)

/-- Stable insertion (used to model the stable `Array.prototype.sort`). -/
def insertCmp (cmp : Str → Str → Int) (x : Str) : List Str → List Str
  | [] => [x]
  | y :: ys => if cmp x y ≤ 0 then x :: y :: ys else y :: insertCmp cmp x ys

/-- Stable sort with a JavaScript comparator. -/
def sortCmp (cmp : Str → Str → Int) : List Str → List Str
  | [] => []
  | x :: xs => insertCmp cmp x (sortCmp cmp xs)

/-- `stringIncludesAny` (gatsby-node.mjs:124-135). -/
def stringIncludesAny (s : Str) (substrings : List Str) : Bool :=
  substrings.any (fun sub => containsStr s sub)

/-- `getFirstCodeLine` (gatsby-node.mjs:137-141): the text up to the first
`;` (the whole text when there is none), trimmed. -/
def getFirstCodeLine (code : Str) : Str :=
  match charIndexOf? code ';' with
  | some i => trimStr (code.take i)
  | none => trimStr code

/-- The test `regexStartsWithImport` = `/^\s*import\s*{/i` (gatsby-node.mjs:143). -/
def startsWithImportTest (code : Str) : Bool :=
  let s1 := trimStartStr code
  startsWithStr (lowerStr s1) ("import".toList) &&
    (match trimStartStr (s1.drop 6) with
     | c :: _ => c = lbrace
     | [] => false)

/-- `getFirstImportStatement` (gatsby-node.mjs:144-151): empty unless the text
starts (modulo whitespace) with `import {`; otherwise the prefix up to and
including the first `;` (empty again when there is no `;`, since
`substring(0, -1 + 1)` is empty). -/
def getFirstImportStatement (code : Str) : Str :=
  if startsWithImportTest code then
    match charIndexOf? code ';' with
    | some i => code.take (i + 1)
    | none => []
  else []

/-! ### The filesystem model and the two conditional writers -/

abbrev FS := List (Str × Str)

def readFile? : FS → Str → Option Str
  | [], _ => none
  | (k, v) :: t, file => if k = file then some v else readFile? t file

def writeFS : FS → Str → Str → FS
  | [], file, content => [(file, content)]
  | (k, v) :: t, file, content =>
    if k = file then (k, content) :: t else (k, v) :: writeFS t file content

/-- `setFileContentIfDifferent` (gatsby-node.mjs:154-172).  A failing read is
treated as empty previous content.  The second component counts the
`writeFileSync` calls performed. -/
def setFileContentIfDifferent (fs : FS) (file newContent : Str) (oldContent : Option Str) :
    FS × Nat :=
  let old := match oldContent with
    | some o => o
    | none => (readFile? fs file).getD []
  if trimStr old ≠ trimStr newContent then (writeFS fs file newContent, 1) else (fs, 0)

/-- `setFileContentIfFirstCodeLineIsDifferent` (gatsby-node.mjs:174-192). -/
def setFileContentIfFirstCodeLineIsDifferent (fs : FS) (file newContent : Str)
    (oldContent : Option Str) : FS × Nat :=
  let old := match oldContent with
    | some o => o
    | none => (readFile? fs file).getD []
  if getFirstCodeLine old ≠ getFirstCodeLine newContent then
    (writeFS fs file newContent, 1)
  else (fs, 0)

/-- `purgeOutputName` on a non-null name (gatsby-node.mjs:195-208). -/
def purgeOutputNameStr (name : Str) : Str :=
  let n := purgePath name
  let n2 := if endsWithStr n (".js".toList) then n else n ++ ".js".toList
  (List.splitOn '/' n2).getLastD []

def purgeOutputName : Option Str → Option Str
  | none => none
  | some n => some (purgeOutputNameStr n)

/-! ### The external Babel parser, modelled at its interface

`getExportedFields` (gatsby-node.mjs:218-249) only inspects, per top-level
node: `node.type`, `spec?.exported?.name` for each entry of
`node.specifiers`, and `decl?.id?.name` / `decl?.id?.elements[..]?.name` /
`decl?.id?.properties[..]?.value?.name` for each entry of
`node.declaration?.declarations`.  Optional chaining that may produce
`undefined` is rendered as `Option`. -/

structure BabelDeclarator where
  idName : Option Str
  idElements : Option (List (Option Str))
  idProperties : Option (List (Option Str))

structure BabelNode where
  type : Str
  specifiers : Option (List (Option Str))
  declarations : Option (List BabelDeclarator)

/-- What `babel.transformSync` contributes: the list of top-level nodes of
`ast.program.body`, or `none` when parsing throws. -/
abbrev Parser := Str → Option (List BabelNode)

/-- The per-node identifier collection of `getExportedFields`
(gatsby-node.mjs:233-240). -/
def extractNodeFields (n : BabelNode) : List (Option Str) :=
  let specifiers := n.specifiers.getD []
  let declarations := (n.declarations.getD []).map (fun decl => decl.idName)
  let declarationsArray := ((n.declarations.getD []).map (fun decl => decl.idElements.getD [])).flatten
  let declarationsObject := ((n.declarations.getD []).map (fun decl => decl.idProperties.getD [])).flatten
  specifiers ++ declarations ++ declarationsArray ++ declarationsObject

/-- The node-list part of `getExportedFields` (gatsby-node.mjs:232-242):
keep `ExportNamedDeclaration` nodes, flatten the per-node lists, and drop
`undefined` entries (the `Array.isArray` part of the final filter concerns
values that cannot arise at this interface). -/
def extractNames (nodes : List BabelNode) : List Str :=
  (((nodes.filter (fun n => n.type = "ExportNamedDeclaration".toList)).map extractNodeFields).flatten).filterMap id

/-! ### Plugin options -/

structure CustomResult where
  code : Option Str
  exports : Option (List Str)

structure PluginOptions where
  importPaths : List Str
  modifyPaths : List Str
  filter : Option (Str → Bool)
  outputName : Option Str
  previousOutputNames : List Str
  fileExtensionsJs : List Str
  fileExtensionsOther : List Str
  fileExtensionsCustom : Option (Str → Option CustomResult)

/-- The per-run `filter` wrapper (gatsby-node.mjs:313-320). -/
def filterAccepts (opts : PluginOptions) (file : Str) : Bool :=
  match opts.filter with
  | some f => f file
  | none => true

/-- `possibleImportLines` (gatsby-node.mjs:215): for every current or
previous (purged) output name `p`, the literal text `./p';`. -/
def possibleImportLines (outputName : Option Str) (previousOutputNames : List Str) : List Str :=
  ((match outputName with | some n => [n] | none => []) ++ previousOutputNames).map
    (fun path => '.' :: '/' :: path ++ [squote, ';'])

/-- The recognition lines of a configuration. -/
def optionLines (opts : PluginOptions) : List Str :=
  possibleImportLines (purgeOutputName opts.outputName)
    (opts.previousOutputNames.map purgeOutputNameStr)

/-- `containsOurImportStatement` (gatsby-node.mjs:251-254). -/
def containsOurImportStatement (lines : List Str) (code : Str) : Bool :=
  stringIncludesAny code lines

/-! ### The purge loop

One iteration of the `while(changed)` loop of `purgeImportedFieldsCode`
(gatsby-node.mjs:256-306).  `none` means neither rule applied (the loop
stops); `some c` means a rule applied and the loop continues on `c`.
Checks of the source of the form `x >= 1` on `indexOf(..) + 1` appear here
as the `none` branches of the corresponding `indexOf` matches. -/
def purgeStep (lines : List Str) (code : Str) : Option Str :=
  let newCode := trimStartStr code
  let firstImportStatement := getFirstImportStatement newCode
  if containsOurImportStatement lines firstImportStatement then
    some (match indexOfFrom? newCode ['\n'] firstImportStatement.length with
      | none => []
      | some importStatementEnd => newCode.drop (importStatementEnd + 1))
  else if startsWithStr newCode ("<<<<<<< HEAD".toList) then
    match charIndexOf? newCode '\n' with
    | none => none
    | some nl0 =>
      let headStartA := nl0 + 1
      match indexOfFrom? newCode ("=======".toList) headStartA with
      | none => none
      | some headEndA =>
        let headA := trimStr (sliceJS newCode headStartA headEndA)
        match indexOfFrom? newCode ['\n'] headEndA with
        | none => none
        | some nlB =>
          let headStartB := nlB + 1
          match indexOfFrom? newCode (">>>>>>>".toList) headStartB with
          | none => none
          | some headEndB =>
            let headB := trimStr (sliceJS newCode headStartB headEndB)
            if containsOurImportStatement lines headA && containsOurImportStatement lines headB then
              some (newCode.drop (match indexOfFrom? newCode ['\n'] headEndB with
                | none => 0
                | some e => e + 1))
            else none
  else none

/-- The loop, driven by fuel. -/
def purgeGo (lines : List Str) : Nat → Str → Option Str
  | 0, _ => none
  | fuel + 1, code =>
    match purgeStep lines code with
    | none => some code
    | some c2 => purgeGo lines fuel c2

/-- `purgeImportedFieldsCode` (gatsby-node.mjs:256-306).  Every productive
iteration strictly shrinks the text, so `length + 2` units of fuel suffice
for every terminating execution; `none` therefore means the source loops
forever on this input. -/
def purgeImportedFieldsCode (lines : List Str) (code : Str) : Option Str :=
  purgeGo lines (code.length + 2) code

/-- `getExportedFields` (gatsby-node.mjs:218-249), parametrized by the
parser.  A parse failure is caught and yields the empty list; `none` only
records a non-terminating purge. -/
def getExportedFields (P : Parser) (lines : List Str) (code : Str) (codeIsPurged : Bool) :
    Option (List Str) :=
  match (if codeIsPurged then some code else purgeImportedFieldsCode lines code) with
  | none => none
  | some purged =>
    match P purged with
    | none => some []
    | some nodes => some (extractNames nodes)

/-! ### The statement-surgery regex

`regexImportReplacer` (gatsby-node.mjs:357) is
`/^(\s*import\s*{\s*)[^}]*([\S,]\s*}\s*from\s*['"]).*(['"]\s*;[\s\S]*)/i`.
It is rendered as an explicit matcher returning the three capture groups,
following the JavaScript backtracking order:

* the leading `\s*`-literal-`\s*` pieces are deterministic (every literal
  they border on starts with a non-space character);
* `[^}]*` is greedy, so the candidate end positions of group 2's single
  `[\S,]` character (a non-space character, commas being non-space) are
  tried from the rightmost one leftwards; given that position, the
  `\s*}\s*from\s*['"]` remainder of group 2 is again deterministic;
* `.*` is greedy and cannot cross a newline, so the quote opening group 3
  is searched from the right within the newline-free prefix, and group 3
  swallows the rest of the string via `[\s\S]*`. -/

def isQuoteCh (c : Char) : Bool := c = squote || c = dquote

/-- Match `\s*}\s*from\s*['"]` (case-insensitively) at the front of `r`,
returning the consumed text and the remainder. -/
def matchBraceFrom (r : Str) : Option (Str × Str) :=
  let w2 := r.takeWhile (fun c => isSpaceChar c)
  match r.drop w2.length with
  | [] => none
  | b :: r2 =>
    if b = rbrace then
      let w3 := r2.takeWhile (fun c => isSpaceChar c)
      let r3 := r2.drop w3.length
      if startsWithStr (lowerStr r3) ("from".toList) then
        let r4 := r3.drop 4
        let w4 := r4.takeWhile (fun c => isSpaceChar c)
        match r4.drop w4.length with
        | q :: r5 =>
          if isQuoteCh q then some (w2 ++ b :: w3 ++ r3.take 4 ++ w4 ++ [q], r5)
          else none
        | [] => none
      else none
    else none

/-- Match `.*(['"]\s*;[\s\S]*)` against all of `t`: group 3 starts at the
rightmost quote within the newline-free prefix that is followed by
whitespace and `;`. -/
def matchTail (t : Str) : Option Str :=
  let lineLen := (t.takeWhile (fun c => c ≠ '\n')).length
  (List.range lineLen).reverse.findSome? (fun j =>
    match t.drop j with
    | q :: rest =>
      if isQuoteCh q && startsWithStr (rest.dropWhile (fun c => isSpaceChar c)) [';'] then
        some (t.drop j)
      else none
    | [] => none)

/-- Try the split of the post-`{` region `r` with `[^}]*` of length `i`:
`r[i]` is group 2's `[\S,]` character. -/
def matchAtSplit (r : Str) (i : Nat) : Option (Str × Str) :=
  match r.drop i with
  | [] => none
  | c :: rest =>
    if isSpaceChar c then none
    else match matchBraceFrom rest with
      | none => none
      | some (g2tail, afterQuote) =>
        match matchTail afterQuote with
        | none => none
        | some p3 => some (c :: g2tail, p3)

/-- Group 2/3 of the matcher on the region after `\s*import\s*{\s*`. -/
def matchReplCore (r : Str) : Option (Str × Str) :=
  match charIndexOf? r rbrace with
  | none => none
  | some fb => (List.range (fb + 1)).reverse.findSome? (fun i => matchAtSplit r i)

/-- The deterministic `^\s*import\s*{\s*` part of the matcher: group 1
and the remaining region. -/
def matchReplPrefix (s : Str) : Option (Str × Str) :=
  let w1 := s.takeWhile (fun c => isSpaceChar c)
  let s1 := s.drop w1.length
  if startsWithStr (lowerStr s1) ("import".toList) then
    let s2 := s1.drop 6
    let w2 := s2.takeWhile (fun c => isSpaceChar c)
    let s3 := s2.drop w2.length
    match s3 with
    | b :: s4 =>
      if b = lbrace then
        let w3 := s4.takeWhile (fun c => isSpaceChar c)
        some (w1 ++ s1.take 6 ++ w2 ++ b :: w3, s4.drop w3.length)
      else none
    | [] => none
  else none

/-- The whole matcher: the three capture groups of `regexImportReplacer`,
or `none` when `.test` is false. -/
def matchRepl (s : Str) : Option (Str × Str × Str) :=
  match matchReplPrefix s with
  | none => none
  | some (p1, r) =>
    match matchReplCore r with
    | none => none
    | some (p2, p3) => some (p1, p2, p3)

/-- The replacement callback of `modifyFile` (gatsby-node.mjs:380-387): drop
group 2's leading character unless it is a comma, and substitute the new
identifier list and module path.  (The regex ends in `[\s\S]*`, so the match
spans the whole statement and the replacement is the whole result.) -/
def replaceImportLine (stmt importLineFields importLineFrom : Str) : Str :=
  match matchRepl stmt with
  | some (p1, p2, p3) =>
    let p2' := if startsWithStr p2 [','] then p2 else p2.drop 1
    p1 ++ importLineFields ++ p2' ++ importLineFrom ++ p3
  | none => stmt

/-! ### The aggregator builder (`importFile`) -/

structure AggState where
  importsCode : Str
  exportedFields : List Str
deriving Repr

/-- `exportedFields[field] = true` (insertion-ordered identifier key set;
all identifiers here are non-numeric, so JavaScript object key order is
insertion order). -/
def insertField (l : List Str) (x : Str) : List Str :=
  if l.contains x then l else l ++ [x]

def insertFields (l : List Str) (xs : List Str) : List Str := xs.foldl insertField l

/-- The statement appended for a js-like file (gatsby-node.mjs:329). -/
def importLineJs (file : Str) (fields : List Str) : Str :=
  "import ".toList ++ lbrace :: joinSep (", ".toList) fields ++ rbrace :: " from ".toList
    ++ squote :: file ++ [squote, ';', '\n']

/-- The statement appended for a plain-include file (gatsby-node.mjs:337). -/
def importLineOther (file : Str) : Str :=
  "import ".toList ++ squote :: file ++ [squote, ';', '\n']

/-- `importFile` (gatsby-node.mjs:322-355).  `none` records a
non-terminating purge inside `getExportedFields`.  The custom branch
reproduces the source's stray `'` appended after the custom code
(gatsby-node.mjs:347), and its `result?.code` truthiness test (an empty
string is falsy). -/
def importFile (P : Parser) (opts : PluginOptions) (fs : FS) (st : AggState) (file : Str) :
    Option AggState :=
  let outputName := purgeOutputName opts.outputName
  if outputName.isSome && isFileOfType file opts.fileExtensionsJs then
    if filterAccepts opts file then
      match getExportedFields P (optionLines opts) ((readFile? fs file).getD []) false with
      | none => none
      | some fields =>
        some (AggState.mk (st.importsCode ++ importLineJs file fields)
          (insertFields st.exportedFields fields))
    else some st
  else if outputName.isSome && isFileOfType file opts.fileExtensionsOther then
    if filterAccepts opts file then
      some (AggState.mk (st.importsCode ++ importLineOther file) st.exportedFields)
    else some st
  else
    match opts.fileExtensionsCustom with
    | some handler =>
      if filterAccepts opts file then
        match handler file with
        | some result =>
          let st1 := match result.code with
            | some c =>
              if c ≠ [] then AggState.mk (st.importsCode ++ c ++ [squote, '\n']) st.exportedFields
              else st
            | none => st
          let st2 := match result.exports with
            | some ex => AggState.mk st1.importsCode (insertFields st1.exportedFields ex)
            | none => st1
          some st2
        | none => some st
      else some st
    | none => some st

/-! ### The consumer rewriter (`modifyFile`) -/

/-- The identifier list injected by `modifyFile` (gatsby-node.mjs:373):
the global export set minus the file's own (purged) exports, joined. -/
def importLineFieldsList (globalFields ownFields : List Str) : List Str :=
  globalFields.filter (fun value => !(ownFields.contains value))

/-- `levelsDeep` (gatsby-node.mjs:372), as the JavaScript number it is. -/
def levelsDeep (file : Str) : Int :=
  Int.ofNat (List.splitOn '/' file).length - 2

/-- The module path injected by `modifyFile` (gatsby-node.mjs:374):
`'./' + '../'.repeat(levelsDeep) + outputName`; `none` when `repeat`
throws on a negative count. -/
def importLineFromOf (file outputName : Str) : Option Str :=
  match repeatJS ("../".toList) (levelsDeep file) with
  | none => none
  | some rep => some ('.' :: '/' :: rep ++ outputName)

/-- The synthesized import line of `modifyFile` (gatsby-node.mjs:375). -/
def synthImportLine (importLineFields importLineFrom : Str) : Str :=
  "import ".toList ++ lbrace :: importLineFields ++ rbrace :: " from ".toList
    ++ squote :: importLineFrom ++ [squote, ';']

/-- The new leading import line of `modifyFile` (gatsby-node.mjs:375-388):
the synthesized line, except that a recognized, regex-matching existing
first import statement is rewritten in place. -/
def modifyNewImportLine (lines : List Str) (code importLineFields importLineFrom : Str) : Str :=
  let firstImportStatement := getFirstImportStatement code
  if firstImportStatement ≠ [] && containsOurImportStatement lines firstImportStatement
      && (matchRepl firstImportStatement).isSome then
    replaceImportLine firstImportStatement importLineFields importLineFrom
  else synthImportLine importLineFields importLineFrom

/-- The content-level core of `modifyFile`: what the new content of the
file is and whether it is written (1) or left alone (0), as a function of
the file's current content.  `modifyFile` below is this composed with one
read and one conditional write; the equivalence is
`modifyFile_eq_content`. -/
def modifyFileContent (P : Parser) (opts : PluginOptions) (globalFields : List Str)
    (file code : Str) : Option (Str × Nat) :=
  if isFileOfType file opts.fileExtensionsJs then
    match purgeImportedFieldsCode (optionLines opts) code with
    | none => none
    | some purgedCode =>
      match purgeOutputName opts.outputName with
      | none =>
        some (if getFirstCodeLine code ≠ getFirstCodeLine purgedCode
          then (purgedCode, 1) else (code, 0))
      | some outputName =>
        match getExportedFields P (optionLines opts) purgedCode true with
        | none => none
        | some fields =>
          match importLineFromOf file outputName with
          | none => none
          | some importLineFrom =>
            let importLineFields := joinSep (", ".toList) (importLineFieldsList globalFields fields)
            let newImportLine := modifyNewImportLine (optionLines opts) code importLineFields importLineFrom
            let newCode := newImportLine ++ '\n' :: purgedCode
            some (if getFirstCodeLine code ≠ getFirstCodeLine newCode
              then (newCode, 1) else (code, 0))
  else some (code, 0)

/-- `modifyFile` (gatsby-node.mjs:358-393).  `none` records a
non-terminating purge or the `RangeError` of `'../'.repeat` on a path
without `/`. -/
def modifyFile (P : Parser) (opts : PluginOptions) (globalFields : List Str) (fs : FS)
    (file : Str) : Option (FS × Nat) :=
  if isFileOfType file opts.fileExtensionsJs then
    match purgeImportedFieldsCode (optionLines opts) ((readFile? fs file).getD []) with
    | none => none
    | some purgedCode =>
      match purgeOutputName opts.outputName with
      | none =>
        some (setFileContentIfFirstCodeLineIsDifferent fs file purgedCode
          (some ((readFile? fs file).getD [])))
      | some outputName =>
        match getExportedFields P (optionLines opts) purgedCode true with
        | none => none
        | some fields =>
          match importLineFromOf file outputName with
          | none => none
          | some importLineFrom =>
            let importLineFields := joinSep (", ".toList) (importLineFieldsList globalFields fields)
            let newImportLine := modifyNewImportLine (optionLines opts)
              ((readFile? fs file).getD []) importLineFields importLineFrom
            let newCode := newImportLine ++ '\n' :: purgedCode
            some (setFileContentIfFirstCodeLineIsDifferent fs file newCode
              (some ((readFile? fs file).getD [])))
  else some (fs, 0)

/-! ### Collection and the whole run (`onPreInit`) -/

/-- `getAllFiles` (gatsby-node.mjs:50-80) over the flat filesystem model:
the root itself when it is a stored file, else every stored file strictly
below it, in storage order (the caller sorts the result). -/
def getAllFiles (fs : FS) (path : Str) : List Str :=
  match readFile? fs path with
  | some _ => [path]
  | none => (fs.map (fun kv => kv.fst)).filter (fun k => startsWithStr k (path ++ ['/']))

/-- One entry of `pluginOptions['import']?.forEach` (gatsby-node.mjs:396). -/
def processImportRoot (P : Parser) (opts : PluginOptions) (fs : FS) (st : AggState)
    (root : Str) : Option AggState :=
  (sortCmp compareFileOrder (getAllFiles fs (purgePath root))).foldlM (importFile P opts fs) st

/-- The whole import phase. -/
def runImportPhase (P : Parser) (opts : PluginOptions) (fs : FS) : Option AggState :=
  opts.importPaths.foldlM (processImportRoot P opts fs) (AggState.mk [] [])

/-- The aggregator text (gatsby-node.mjs:399). -/
def aggregatorContent (st : AggState) : Str :=
  st.importsCode ++ '\n' :: "export ".toList ++ lbrace :: joinSep (", ".toList) st.exportedFields
    ++ [rbrace, ';', '\n']

def processModifyFile (P : Parser) (opts : PluginOptions) (globalFields : List Str)
    (acc : FS × Nat) (file : Str) : Option (FS × Nat) :=
  match modifyFile P opts globalFields acc.fst file with
  | none => none
  | some (fs2, w) => some (fs2, acc.snd + w)

/-- One entry of `pluginOptions['modify']?.forEach` (gatsby-node.mjs:401). -/
def processModifyRoot (P : Parser) (opts : PluginOptions) (globalFields : List Str)
    (acc : FS × Nat) (root : Str) : Option (FS × Nat) :=
  (sortCmp compareFileOrder (getAllFiles acc.fst (purgePath root))).foldlM
    (processModifyFile P opts globalFields) acc

/-- `onPreInit` (gatsby-node.mjs:211-402): import phase, conditional
aggregator write, modify phase.  The result is the final filesystem and
the total number of `writeFileSync` calls; `none` records a
non-terminating or throwing run. -/
def onPreInit (P : Parser) (opts : PluginOptions) (fs : FS) : Option (FS × Nat) :=
  match runImportPhase P opts fs with
  | none => none
  | some st =>
    let acc1 := match purgeOutputName opts.outputName with
      | some outputName =>
        setFileContentIfDifferent fs ('.' :: '/' :: outputName) (aggregatorContent st) none
      | none => (fs, 0)
    opts.modifyPaths.foldlM (processModifyRoot P opts st.exportedFields) acc1

/-- `onPreExtractQueries = onPreInit` (gatsby-node.mjs:403). -/
def onPreExtractQueries (P : Parser) (opts : PluginOptions) (fs : FS) : Option (FS × Nat) :=
  onPreInit P opts fs

/-! ### Plain characters and the clean shape of generated import lines

These definitions are not part of the source; they name the hypotheses
under which the statement-surgery analysis below is carried out. -/

/-- An unproblematic character for identifiers, module names and module
paths: not whitespace and none of the delimiter characters the source's
text surgery keys on. -/
def plainChar (c : Char) : Bool :=
  !(isSpaceChar c) && c ≠ ';' && c ≠ lbrace && c ≠ rbrace && c ≠ squote && c ≠ dquote && c ≠ ','

/-- A nonempty string of plain characters. -/
def plainStr (s : Str) : Bool :=
  !s.isEmpty && s.all plainChar

/-- A character that can occur in a comma-and-space joined identifier list. -/
def fldsChar (c : Char) : Bool := plainChar c || c = ',' || c = ' '

/-- A well-formed joined identifier list: empty, or made of `fldsChar`s with
plain first and last characters (as `", "`-joins of plain names are). -/
def fldsOk (s : Str) : Bool :=
  s.isEmpty || (s.all fldsChar && plainChar (s.headD ' ') && plainChar (s.getLastD ' '))

/-- Decompose a line of the exact shape the source itself generates:
`import {FIELDS} from 'PATH';`. -/
def parseCleanImportLine (s : Str) : Option (Str × Str) :=
  if startsWithStr s ("import ".toList ++ [lbrace]) then
    let r := s.drop 8
    match charIndexOf? r rbrace with
    | none => none
    | some i =>
      let flds := r.take i
      let rest := r.drop i
      if startsWithStr rest (rbrace :: " from ".toList ++ [squote]) then
        let pq := rest.drop 8
        if endsWithStr pq [squote, ';'] then some (flds, pq.take (pq.length - 2))
        else none
      else none
  else none

/-- A first import statement in the tool's own output format. -/
def isCleanImportLine (s : Str) : Bool :=
  match parseCleanImportLine s with
  | some (flds, p) =>
    fldsOk flds && p.all plainChar && decide (s = synthImportLine flds p)
  | none => false

/-- A leading three-way conflict block: `<<<<<<< HEAD`, side `A`, a
`=======` line with trailing text `M`, side `B`, a `>>>>>>>` line with
trailing text `L`, followed by the rest `R`. -/
def conflictBlock (A M B L R : Str) : Str :=
  "<<<<<<< HEAD".toList
    ++ '\n' :: (A ++ ("=======".toList ++ (M ++ '\n' :: (B ++ (">>>>>>>".toList ++ (L ++ '\n' :: R))))))

/-! ### Concrete instances used by counterexamples and witnesses -/

/-- The default-like options of the idempotence counterexample: the import
root `.` contains the place where the aggregator itself is written. -/
def cexOpts : PluginOptions :=
  PluginOptions.mk [".".toList] [] none (some ("imports.js".toList)) []
    ["js".toList, "jsx".toList] ["css".toList] none

/-- A table parser understanding the single source file of the
counterexample; everything else parses as an empty program. -/
def cexParser : Parser := fun c =>
  if c = "export const A = 1;".toList then
    some [BabelNode.mk ("ExportNamedDeclaration".toList) none
      (some [BabelDeclarator.mk (some ("A".toList)) none none])]
  else some []

def cexFs : FS := [("./a.js".toList, "export const A = 1;".toList)]

/-- The recognition lines for output name `imports.js` with no previous names. -/
def mainLines : List Str := possibleImportLines (some ("imports.js".toList)) []

/-- The filesystem after the first run on `cexFs`: the aggregator has been
written inside the import root. -/
def cexFs1 : FS :=
  [("./a.js".toList, "export const A = 1;".toList),
   ("./imports.js".toList,
     "import ".toList ++ lbrace :: "A".toList
       ++ rbrace :: " from './a.js';\n\nexport ".toList ++ lbrace :: "A".toList
       ++ rbrace :: ";\n".toList)]

/-- The filesystem after the second run: the aggregator file was collected
by the import traversal this time, so the aggregator text changed and was
written again. -/
def cexFs2 : FS :=
  [("./a.js".toList, "export const A = 1;".toList),
   ("./imports.js".toList,
     "import ".toList ++ lbrace :: "A".toList
       ++ rbrace :: " from './a.js';\nimport ".toList ++ lbrace
       :: rbrace :: " from './imports.js';\n\nexport ".toList ++ lbrace :: "A".toList
       ++ rbrace :: ";\n".toList)]

/-- A conflict block whose closing `>>>>>>>` marker is not followed by a
newline: both sides contain the generated-import marker text, so the
collapse rule fires, but it removes nothing. -/
def conflictStallText : Str :=
  ("<<<<<<< HEAD\nx'./imports.js';\n=======\ny'./imports.js';\n>>>>>>>".toList)

/-- A conflict side whose leading statement (`q`) is not a generated import
line, but whose second line contains the generated-import marker text. -/
def conflictCexSideA : Str := "q;x'./imports.js';".toList

/-- A complete conflict block built from `conflictCexSideA` and a
generated import line, followed by `rest`. -/
def conflictCexText : Str :=
  conflictBlock (conflictCexSideA ++ ['\n']) []
    ("import ".toList ++ lbrace :: ("B".toList) ++ rbrace :: (" from './imports.js';\n".toList))
    (" branch".toList) ("rest".toList)

/-- An `export {A, B}` re-export node, at the modelled interface. -/
def nodeReexport (a b : Str) : BabelNode :=
  BabelNode.mk ("ExportNamedDeclaration".toList) (some [some a, some b]) none

/-- An `export const A = .., B = ..` node. -/
def nodeVarDecls (a b : Str) : BabelNode :=
  BabelNode.mk ("ExportNamedDeclaration".toList) none
    (some [BabelDeclarator.mk (some a) none none, BabelDeclarator.mk (some b) none none])

/-- An `export const [A, B] = ..` node (array destructuring: the pattern has
no `id.name`, only `id.elements`). -/
def nodeArrayPattern (a b : Str) : BabelNode :=
  BabelNode.mk ("ExportNamedDeclaration".toList) none
    (some [BabelDeclarator.mk none (some [some a, some b]) none])

/-- An `export const {x: A, y: B} = ..` node (object destructuring: the
pattern has no `id.name`, only `id.properties` value names). -/
def nodeObjectPattern (a b : Str) : BabelNode :=
  BabelNode.mk ("ExportNamedDeclaration".toList) none
    (some [BabelDeclarator.mk none none (some [some a, some b])])

/-- Options with output disabled and a custom handler, for the dispatch
claims: note `js` is also a configured js-like extension. -/
def customOpts : PluginOptions :=
  PluginOptions.mk [] [] none none [] ["js".toList] ["css".toList]
    (some (fun _ => some (CustomResult.mk (some ("x".toList)) (some ["E".toList]))))

/-! ### Side conditions of the amended idempotence statement

These predicates name, in terms of the embedded source functions, the
conditions under which the second run of `onPreInit` is write-free: the
parser- and handler-supplied identifiers and the output name consist of
plain characters, the aggregator file is not itself collected by any
configured root, every collected consumer path has at least two
segments, purge terminates on the collected contents, and any
recognized first import statement is in the tool's own output format. -/

/-- The identifier extraction of `getExportedFields` on text that is
already purged, as a pure function of the parser result. -/
def fieldsPure (P : Parser) (code : Str) : List Str :=
  match P code with
  | none => []
  | some nodes => extractNames nodes

/-- Purge terminates on the content, and a recognized first import
statement (if any) is in the tool's own clean output format. -/
@[reducible] def goodContent (lines : List Str) (c : Str) : Prop :=
  (purgeImportedFieldsCode lines c).isSome = true ∧
  (containsOurImportStatement lines (getFirstImportStatement c) = true →
    isCleanImportLine (getFirstImportStatement c) = true)

/-- A root that can never collect the aggregator file `./nm`. -/
@[reducible] def rootAvoidsAgg (nm : Str) (r : Str) : Prop :=
  purgePath r ≠ '.' :: '/' :: nm ∧
  startsWithStr ('.' :: '/' :: nm) (purgePath r ++ ['/']) = false

/-- A stored file is in its post-modify stable state relative to the
original filesystem `fs0`: its current content purges to the same result
as the original one, re-modifying it writes nothing, and (for js-like
files) a recognized first import statement is clean. -/
def modifyStable (P : Parser) (opts : PluginOptions) (g : List Str) (fs0 acc : FS)
    (f : Str) : Prop :=
  ∃ c0 c1, readFile? fs0 f = some c0 ∧ readFile? acc f = some c1 ∧
    purgeImportedFieldsCode (optionLines opts) c1
      = purgeImportedFieldsCode (optionLines opts) c0 ∧
    modifyFileContent P opts g f c1 = some (c1, 0) ∧
    (isFileOfType f opts.fileExtensionsJs = true →
      containsOurImportStatement (optionLines opts) (getFirstImportStatement c1) = true →
      isCleanImportLine (getFirstImportStatement c1) = true)

/-- A file is either untouched since `fs0` or in its stable state. -/
def contentLink (P : Parser) (opts : PluginOptions) (g : List Str) (fs0 acc : FS)
    (f : Str) : Prop :=
  readFile? acc f = readFile? fs0 f ∨ modifyStable P opts g fs0 acc f

/-- The invariant of the modify phase: the key set matches the
filesystem `base` present when the phase started, the aggregator file is
untouched since then, every other file is linked to its original
content, and every already-processed file (`done`) is stable. -/
def modifyInv (P : Parser) (opts : PluginOptions) (g : List Str) (nm : Str)
    (fs0 base : FS) (done : Str → Prop) (acc : FS) : Prop :=
  acc.map Prod.fst = base.map Prod.fst ∧
  readFile? acc ('.' :: '/' :: nm) = readFile? base ('.' :: '/' :: nm) ∧
  (∀ f, f ≠ '.' :: '/' :: nm → contentLink P opts g fs0 acc f) ∧
  (∀ f, done f → modifyStable P opts g fs0 acc f)

/-- The side conditions on one collected modify target. -/
def modifyFileOK (opts : PluginOptions) (nm : Str) (fs0 : FS)
    (f : Str) : Prop :=
  f ≠ '.' :: '/' :: nm ∧ readFile? fs0 f ≠ none ∧
  (isFileOfType f opts.fileExtensionsJs = true →
    2 ≤ (List.splitOn '/' f).length ∧
    goodContent (optionLines opts) ((readFile? fs0 f).getD []))

/-- The side condition on one collected import source: purge terminates
on the contents the aggregation phase will read. -/
@[reducible] def importOK (opts : PluginOptions) (fs0 : FS) (f : Str) : Prop :=
  isFileOfType f opts.fileExtensionsJs = true → filterAccepts opts f = true →
    (purgeImportedFieldsCode (optionLines opts) ((readFile? fs0 f).getD [])).isSome = true

/-- Witness data for the amended idempotence statement: one import root
`src`, one modify root `pages`, and the default aggregator `./imports.js`
stored outside both roots. -/
def wParser : Parser := fun c =>
  if c = "export const A = 1;".toList then
    some [BabelNode.mk ("ExportNamedDeclaration".toList) none
      (some [BabelDeclarator.mk (some ("A".toList)) none none])]
  else some []

def wOpts : PluginOptions :=
  PluginOptions.mk ["src".toList] ["pages".toList] none
    (some ("imports.js".toList)) [] ["js".toList] ["css".toList] none

def wFs : FS :=
  [("src/a.js".toList, "export const A = 1;".toList),
   ("pages/p.js".toList, "const q = 1;".toList)]

/-! ## Helper lemmas -/

theorem contains_iff_mem (l : List Str) (x : Str) : l.contains x = true ↔ x ∈ l := by
  simp [List.contains]

theorem insertField_eq_of_mem (l : List Str) (x : Str) (h : x ∈ l) :
    insertField l x = l := by
  unfold insertField
  rw [if_pos ((contains_iff_mem l x).mpr h)]

theorem insertField_eq_of_not_mem (l : List Str) (x : Str) (h : x ∉ l) :
    insertField l x = l ++ [x] := by
  unfold insertField
  rw [if_neg (fun hc => h ((contains_iff_mem l x).mp hc))]

theorem mem_insertField (l : List Str) (x y : Str) :
    y ∈ insertField l x ↔ y ∈ l ∨ y = x := by
  by_cases h : x ∈ l
  · rw [insertField_eq_of_mem l x h]
    exact ⟨Or.inl, fun hy => hy.elim id fun he => he ▸ h⟩
  · rw [insertField_eq_of_not_mem l x h]
    simp

theorem mem_insertFields (l : List Str) (xs : List Str) (y : Str) :
    y ∈ insertFields l xs ↔ y ∈ l ∨ y ∈ xs := by
  induction xs generalizing l with
  | nil => simp [insertFields]
  | cons x xs ih =>
    show y ∈ insertFields (insertField l x) xs ↔ _
    rw [ih, mem_insertField]
    simp [or_assoc]

theorem insertFields_nil (l : List Str) : insertFields l [] = l := rfl

/-- The workhorse for index computations: the first occurrence of a
needle `c :: tail` in `pre ++ c :: rest` is at `pre.length`, provided the
needle's first character does not occur in `pre` and the needle indeed
matches there. -/
theorem indexOfStr?_append_needle (pre rest tail : Str) (c : Char) (hpre : c ∉ pre)
    (htail : tail <+: rest) :
    indexOfStr? (pre ++ c :: rest) (c :: tail) = some pre.length := by
  induction pre with
  | nil =>
    simp only [List.nil_append, indexOfStr?]
    rw [if_pos ?hp]
    case hp =>
      rw [List.isPrefixOf_iff_prefix, List.cons_prefix_cons]
      exact ⟨rfl, htail⟩
    rfl
  | cons d t ih =>
    have h1 : c ≠ d := fun he => hpre (by rw [he]; exact List.mem_cons_self d t)
    have h2 : c ∉ t := fun hm => hpre (List.mem_cons_of_mem d hm)
    have hni : ¬ ((c :: tail).isPrefixOf (d :: (t ++ c :: rest)) = true) := by
      rw [List.isPrefixOf_iff_prefix, List.cons_prefix_cons]
      exact fun hc => h1 hc.1
    simp only [List.cons_append, indexOfStr?, List.append_eq]
    rw [if_neg hni, ih h2]
    rfl

/-- `charIndexOf?` on `pre ++ c :: post` with `c ∉ pre` is `pre.length`. -/
theorem charIndexOf?_append (pre post : Str) (c : Char) (h : c ∉ pre) :
    charIndexOf? (pre ++ c :: post) c = some pre.length :=
  indexOfStr?_append_needle pre post [] c h List.nil_prefix

/-- `charIndexOf?` finds nothing when the character is absent. -/
theorem charIndexOf?_eq_none (code : Str) (c : Char) (h : c ∉ code) :
    charIndexOf? code c = none := by
  induction code with
  | nil => rfl
  | cons d t ih =>
    have h1 : c ≠ d := fun he => h (by rw [he]; exact List.mem_cons_self d t)
    have h2 : c ∉ t := fun hm => h (List.mem_cons_of_mem d hm)
    have hni : ¬ ([c].isPrefixOf (d :: t) = true) := by
      rw [List.isPrefixOf_iff_prefix, List.cons_prefix_cons]
      exact fun hc => h1 hc.1
    simp only [charIndexOf?, indexOfStr?] at ih ⊢
    rw [if_neg hni, ih h2]
    rfl

/-! ### Fuel lemmas for the purge loop -/

theorem purgeGo_terminal (lines : List Str) (n : Nat) (c r : Str)
    (h : purgeGo lines n c = some r) : purgeStep lines r = none := by
  induction n generalizing c with
  | zero => simp [purgeGo] at h
  | succ n ih =>
    unfold purgeGo at h
    cases hs : purgeStep lines c with
    | none =>
      rw [hs] at h
      cases h
      exact hs
    | some c2 =>
      rw [hs] at h
      exact ih c2 h

theorem purgeGo_of_stall (lines : List Str) (c : Str) (h : purgeStep lines c = some c) :
    ∀ n, purgeGo lines n c = none := by
  intro n
  induction n with
  | zero => rfl
  | succ n ih => simp [purgeGo, h, ih]

theorem purge_of_step_none (lines : List Str) (c : Str) (h : purgeStep lines c = none) :
    purgeImportedFieldsCode lines c = some c := by
  unfold purgeImportedFieldsCode
  show purgeGo lines (c.length + 1 + 1) c = some c
  unfold purgeGo
  rw [h]

/-- A terminating purge result is a fixed point of the loop. -/
theorem purge_fixpoint (lines : List Str) (c r : Str)
    (h : purgeImportedFieldsCode lines c = some r) :
    purgeStep lines r = none ∧ purgeImportedFieldsCode lines r = some r := by
  have hstep := purgeGo_terminal lines (c.length + 2) c r h
  exact ⟨hstep, purge_of_step_none lines r hstep⟩

/-- A purge that takes exactly one productive step. -/
theorem purge_of_two_steps (lines : List Str) (c c' : Str)
    (h1 : purgeStep lines c = some c') (h2 : purgeStep lines c' = none) :
    purgeImportedFieldsCode lines c = some c' := by
  unfold purgeImportedFieldsCode
  show purgeGo lines (c.length + 1 + 1) c = some c'
  unfold purgeGo
  rw [h1]
  show purgeGo lines (c.length + 1) c' = some c'
  unfold purgeGo
  rw [h2]

/-! ## Claim C2: depth of a modify target and the number of `../` segments -/

/-- Claim C2 as stated is false: the claim predicts that a target whose
normalized path has `s` slash-separated segments receives `s - 1` many
`../` segments; at `pages/p.js` (2 segments) the code computes
`split('/').length - 2 = 0` of them, not 1, and injects `./imports.js`. -/
theorem claim2_counterexample :
    importLineFromOf ("pages/p.js".toList) ("imports.js".toList) = some ("./imports.js".toList)
    ∧ (List.splitOn '/' ("pages/p.js".toList)).length = 2
    ∧ importLineFromOf ("pages/p.js".toList) ("imports.js".toList)
        ≠ some ('.' :: '/' ::
            repeatStr ("../".toList) ((List.splitOn '/' ("pages/p.js".toList)).length - 1)
            ++ "imports.js".toList) := by
  refine ⟨by decide, by decide, by decide⟩

/-- Claim C2 (amended): a modify target whose path splits into `s ≥ 2`
slash-separated segments receives an import path with exactly `s - 2` many
`../` segments between the leading `./` and the output name (so a file
collected directly under a one-segment root, with a two-segment path, gets
`./<outputName>`); for `s < 2` the source throws (`'../'.repeat(-1)`). -/
theorem claim2_theorem (file outputName : Str) (s : Nat)
    (hs : (List.splitOn '/' file).length = s) (h2 : 2 ≤ s) :
    importLineFromOf file outputName
      = some ('.' :: '/' :: repeatStr ("../".toList) (s - 2) ++ outputName) := by
  have hneg : ¬ ((Int.ofNat s - 2 : Int) < 0) := by
    rw [Int.ofNat_eq_natCast]
    omega
  have htn : ((Int.ofNat s - 2 : Int)).toNat = s - 2 := by
    rw [Int.ofNat_eq_natCast]
    omega
  simp only [importLineFromOf, levelsDeep, repeatJS, hs]
  rw [if_neg hneg, htn]

theorem claim2_witness :
    (List.splitOn '/' ("./pages/p.js".toList)).length = 3 ∧ 2 ≤ 3 ∧
    importLineFromOf ("./pages/p.js".toList) ("imports.js".toList)
      = some ('.' :: '/' :: repeatStr ("../".toList) (3 - 2) ++ "imports.js".toList) :=
  ⟨by decide, by decide,
    claim2_theorem ("./pages/p.js".toList) ("imports.js".toList) 3 (by decide) (by decide)⟩

/-! ## Claim C3: the injected identifier list is global minus own -/

theorem contains_eq_false_iff (l : List Str) (x : Str) : l.contains x = false ↔ x ∉ l := by
  rw [← Bool.not_eq_true, contains_iff_mem]

/-- Claim C3 (confirmed): whenever the own exports of a modify target are
recomputed from its purged text, the identifier list injected into the file
(`importLineFieldsList`, joined by `modifyFile`) contains exactly the
global names that the file does not itself export, in the global set's
order (a sublist); in particular a target exporting `X` never imports `X`,
even if `X` is in the global set via another file. -/
theorem claim3_theorem (P : Parser) (lines : List Str) (purged : Str)
    (globalFields ownFields : List Str)
    (_hown : getExportedFields P lines purged true = some ownFields) :
    (∀ X, X ∈ importLineFieldsList globalFields ownFields ↔ X ∈ globalFields ∧ X ∉ ownFields)
    ∧ (importLineFieldsList globalFields ownFields).Sublist globalFields
    ∧ (∀ X, X ∈ ownFields → X ∉ importLineFieldsList globalFields ownFields) := by
  refine ⟨?_, List.filter_sublist _, ?_⟩
  · intro X
    simp only [importLineFieldsList, List.mem_filter, Bool.not_eq_true']
    rw [contains_eq_false_iff]
  · intro X hX hmem
    have := (by
      simpa only [importLineFieldsList, List.mem_filter, Bool.not_eq_true'] using hmem :
      X ∈ globalFields ∧ ownFields.contains X = false)
    exact absurd hX ((contains_eq_false_iff ownFields X).mp this.2)

theorem claim3_witness :
    (∀ X, X ∈ importLineFieldsList ["A".toList, "B".toList] ["A".toList]
      ↔ X ∈ ["A".toList, "B".toList] ∧ X ∉ ["A".toList])
    ∧ (importLineFieldsList ["A".toList, "B".toList] ["A".toList]).Sublist
        ["A".toList, "B".toList]
    ∧ (∀ X, X ∈ ["A".toList] → X ∉ importLineFieldsList ["A".toList, "B".toList] ["A".toList]) :=
  claim3_theorem cexParser mainLines ("export const A = 1;".toList)
    ["A".toList, "B".toList] ["A".toList] (by decide)

/-! ## Claim C7: parse failures are caught -/

/-- Claim C7 (confirmed): when the (purged) text of a file fails to parse,
`getExportedFields` returns the empty identifier list instead of
propagating the failure, and `importFile` consequently continues, treating
the file as exporting nothing (it still appends an identifier-free import
statement for it). -/
theorem claim7_theorem (P : Parser) (opts : PluginOptions) (fs : FS) (st : AggState)
    (file code purged : Str)
    (hpurge : purgeImportedFieldsCode (optionLines opts) code = some purged)
    (hfail : P purged = none)
    (hout : (purgeOutputName opts.outputName).isSome = true)
    (hjs : isFileOfType file opts.fileExtensionsJs = true)
    (hfil : filterAccepts opts file = true)
    (hread : readFile? fs file = some code) :
    getExportedFields P (optionLines opts) code false = some []
    ∧ importFile P opts fs st file
        = some (AggState.mk (st.importsCode ++ importLineJs file []) st.exportedFields) := by
  have h1 : getExportedFields P (optionLines opts) code false = some [] := by
    unfold getExportedFields
    rw [if_neg (by simp)]
    simp [hpurge, hfail]
  refine ⟨h1, ?_⟩
  unfold importFile
  simp [hout, hjs, hfil, hread, h1, insertFields_nil]

theorem claim7_witness :
    getExportedFields (fun _ => none) (optionLines cexOpts) ("x;".toList) false = some []
    ∧ importFile (fun _ => none) cexOpts [("b.js".toList, "x;".toList)] (AggState.mk [] [])
        ("b.js".toList)
      = some (AggState.mk (([] : Str) ++ importLineJs ("b.js".toList) []) []) :=
  claim7_theorem (fun _ => none) cexOpts [("b.js".toList, "x;".toList)] (AggState.mk [] [])
    ("b.js".toList) ("x;".toList) ("x;".toList)
    (by decide) rfl (by decide) (by decide) (by decide) (by decide)

/-! ## Claim C10: disabled output diverts js-like files to the custom handler -/

/-- Claim C10 (confirmed): with the output name configured as disabled,
`importFile` skips the js-like and plain-include branches entirely, so even
a file matching a js-like extension is handed to the configured custom
handler, whose code and exports are applied. -/
theorem claim10_theorem (P : Parser) (opts : PluginOptions) (fs : FS) (st : AggState)
    (file : Str) (handler : Str → Option CustomResult) (res : CustomResult)
    (c : Str) (ex : List Str)
    (hout : purgeOutputName opts.outputName = none)
    (_hjs : isFileOfType file opts.fileExtensionsJs = true)
    (hcustom : opts.fileExtensionsCustom = some handler)
    (hfil : filterAccepts opts file = true)
    (hres : handler file = some res)
    (hcode : res.code = some c) (hcne : c ≠ [])
    (hex : res.exports = some ex) :
    importFile P opts fs st file
      = some (AggState.mk (st.importsCode ++ c ++ [squote, '\n'])
          (insertFields st.exportedFields ex)) := by
  unfold importFile
  rw [hout]
  simp [hcustom, hfil, hres, hcode, hex, hcne]

theorem claim10_witness :
    importFile (fun _ => some []) customOpts [] (AggState.mk [] []) ("a.js".toList)
      = some (AggState.mk (([] : Str) ++ "x".toList ++ [squote, '\n'])
          (insertFields [] ["E".toList])) :=
  claim10_theorem (fun _ => some []) customOpts [] (AggState.mk [] []) ("a.js".toList)
    (fun _ => some (CustomResult.mk (some ("x".toList)) (some ["E".toList])))
    (CustomResult.mk (some ("x".toList)) (some ["E".toList])) ("x".toList) ["E".toList]
    rfl (by decide) rfl rfl rfl rfl (by decide) rfl

/-! ## Claim C9: the idempotent writers -/

/-- Claim C9 (confirmed): both writers treat an absent (or unreadable)
existing file as empty prior content; the aggregator writer writes exactly
when the trimmed contents differ, the consumer writer exactly when the
first code lines differ, and on equality the filesystem is untouched; the
first code line is the text up to the first `;` (the whole text when there
is none), trimmed. -/
theorem claim9_theorem :
    (∀ (fs : FS) (file new : Str), readFile? fs file = none →
      setFileContentIfDifferent fs file new none
        = setFileContentIfDifferent fs file new (some [])
      ∧ setFileContentIfFirstCodeLineIsDifferent fs file new none
        = setFileContentIfFirstCodeLineIsDifferent fs file new (some []))
    ∧ (∀ (fs : FS) (file new old : Str),
        (trimStr old = trimStr new → setFileContentIfDifferent fs file new (some old) = (fs, 0))
        ∧ (trimStr old ≠ trimStr new →
            setFileContentIfDifferent fs file new (some old) = (writeFS fs file new, 1)))
    ∧ (∀ (fs : FS) (file new old : Str),
        (getFirstCodeLine old = getFirstCodeLine new →
            setFileContentIfFirstCodeLineIsDifferent fs file new (some old) = (fs, 0))
        ∧ (getFirstCodeLine old ≠ getFirstCodeLine new →
            setFileContentIfFirstCodeLineIsDifferent fs file new (some old)
              = (writeFS fs file new, 1)))
    ∧ (∀ code : Str, ';' ∉ code → getFirstCodeLine code = trimStr code)
    ∧ (∀ pre post : Str, ';' ∉ pre → getFirstCodeLine (pre ++ ';' :: post) = trimStr pre) := by
  refine ⟨?_, ?_, ?_, ?_, ?_⟩
  · intro fs file new h
    unfold setFileContentIfDifferent setFileContentIfFirstCodeLineIsDifferent
    rw [h]
    exact ⟨rfl, rfl⟩
  · intro fs file new old
    constructor
    · intro h
      unfold setFileContentIfDifferent
      rw [if_neg (by simp [h])]
    · intro h
      unfold setFileContentIfDifferent
      rw [if_pos h]
  · intro fs file new old
    constructor
    · intro h
      unfold setFileContentIfFirstCodeLineIsDifferent
      rw [if_neg (by simp [h])]
    · intro h
      unfold setFileContentIfFirstCodeLineIsDifferent
      rw [if_pos h]
  · intro code h
    unfold getFirstCodeLine
    rw [charIndexOf?_eq_none code ';' h]
  · intro pre post h
    unfold getFirstCodeLine
    rw [charIndexOf?_append pre post ';' h]
    show trimStr (List.take pre.length (pre ++ ';' :: post)) = trimStr pre
    rw [List.take_left]

theorem claim9_witness :
    setFileContentIfDifferent [] ("f".toList) ("x".toList) none
      = setFileContentIfDifferent [] ("f".toList) ("x".toList) (some [])
    ∧ setFileContentIfDifferent [] ("f".toList) ("x".toList) (some (" x ".toList)) = ([], 0)
    ∧ getFirstCodeLine (" a ; b".toList) = trimStr (" a ".toList) :=
  ⟨(claim9_theorem.1 [] ("f".toList) ("x".toList) (by decide)).1,
    (claim9_theorem.2.1 [] ("f".toList) ("x".toList) (" x ".toList)).1 (by decide),
    claim9_theorem.2.2.2.2 (" a ".toList) (" b".toList) (by decide)⟩

/-! ## Claim C8: file classification by extension lists -/

/-- Claim C8 as stated is false: the suffix match is not case-insensitive
with respect to the configured extension.  `a.JS` matches the configured
js-like extension `JS` up to letter casing (first conjunct), yet it is not
classified js-like, because the source lowercases only the file name and
compares against the extension verbatim. -/
theorem claim8_counterexample :
    endsWithStr (lowerStr ("a.JS".toList)) ('.' :: lowerStr ("JS".toList)) = true
    ∧ isFileOfType ("a.JS".toList) [("JS".toList)] = false := by
  refine ⟨by decide, by decide⟩

/-- Claim C8 (amended): the classification is a suffix match of the
lowercased file name against the verbatim configured extension (with `.`
prepended when the extension lacks it); hence a file in any letter casing
matches a lowercase-configured extension (first part).  With output
enabled, the js-like list is checked first: a file matching both lists is
processed as js-like (second part); a file matching neither list falls
through to the custom handler (third part). -/
theorem claim8_theorem :
    (∀ (file type : Str) (types : List Str), type ∈ types →
      startsWithStr type ['.'] = false →
      endsWithStr (lowerStr file) ('.' :: type) = true →
      isFileOfType file types = true)
    ∧ (∀ (P : Parser) (opts : PluginOptions) (fs : FS) (st : AggState) (file : Str)
        (fields : List Str),
        (purgeOutputName opts.outputName).isSome = true →
        isFileOfType file opts.fileExtensionsJs = true →
        isFileOfType file opts.fileExtensionsOther = true →
        filterAccepts opts file = true →
        getExportedFields P (optionLines opts) ((readFile? fs file).getD []) false = some fields →
        importFile P opts fs st file
          = some (AggState.mk (st.importsCode ++ importLineJs file fields)
              (insertFields st.exportedFields fields)))
    ∧ (∀ (P : Parser) (opts : PluginOptions) (fs : FS) (st : AggState) (file : Str)
        (handler : Str → Option CustomResult),
        isFileOfType file opts.fileExtensionsJs = false →
        isFileOfType file opts.fileExtensionsOther = false →
        opts.fileExtensionsCustom = some handler →
        filterAccepts opts file = true →
        handler file = none →
        importFile P opts fs st file = some st) := by
  refine ⟨?_, ?_, ?_⟩
  · intro file type types hmem hdot hend
    unfold isFileOfType
    rw [List.any_eq_true]
    exact ⟨type, hmem, by rw [hdot] at *; simpa [hdot] using hend⟩
  · intro P opts fs st file fields hout hjs _hother hfil hget
    unfold importFile
    simp [hout, hjs, hfil, hget]
  · intro P opts fs st file handler hjs hother hcustom hfil hres
    unfold importFile
    simp [hjs, hother, hcustom, hfil, hres]

theorem claim8_witness :
    isFileOfType ("A.Js".toList) ["css".toList, "js".toList] = true
    ∧ importFile (fun _ => some [])
        (PluginOptions.mk [] [] none (some ("i".toList)) [] ["js".toList] ["js".toList] none)
        [] (AggState.mk [] []) ("a.js".toList)
      = some (AggState.mk (([] : Str) ++ importLineJs ("a.js".toList) [])
          (insertFields [] [])) :=
  ⟨claim8_theorem.1 ("A.Js".toList) ("js".toList) ["css".toList, "js".toList]
      (by decide) (by decide) (by decide),
    claim8_theorem.2.1 (fun _ => some [])
      (PluginOptions.mk [] [] none (some ("i".toList)) [] ["js".toList] ["js".toList] none)
      [] (AggState.mk [] []) ("a.js".toList) []
      (by decide) (by decide) (by decide) (by decide) (by decide)⟩

/-! ## Claim C6: the extractor round trip -/

/-- Claim C6 (confirmed): a parsable file whose named exports declare
exactly `a` and `b` contributes exactly `a` and `b`: the extractor returns
`[a, b]` whether they are declared as re-export specifiers, plain
variable-declaration identifiers, array-destructuring elements, or
object-destructuring property values; `getExportedFields` returns exactly
that list, and folding it into the aggregate export set adds exactly `a`
and `b`. -/
theorem claim6_theorem (a b : Str) :
    extractNames [nodeReexport a b] = [a, b]
    ∧ extractNames [nodeVarDecls a b] = [a, b]
    ∧ extractNames [nodeArrayPattern a b] = [a, b]
    ∧ extractNames [nodeObjectPattern a b] = [a, b]
    ∧ (∀ (P : Parser) (lines : List Str) (code : Str) (node : BabelNode),
        P code = some [node] →
        (node = nodeReexport a b ∨ node = nodeVarDecls a b ∨ node = nodeArrayPattern a b
          ∨ node = nodeObjectPattern a b) →
        getExportedFields P lines code true = some [a, b])
    ∧ (∀ (exported : List Str) (X : Str),
        X ∈ insertFields exported [a, b] ↔ X ∈ exported ∨ X = a ∨ X = b) := by
  have h1 : extractNames [nodeReexport a b] = [a, b] := rfl
  have h2 : extractNames [nodeVarDecls a b] = [a, b] := rfl
  have h3 : extractNames [nodeArrayPattern a b] = [a, b] := rfl
  have h4 : extractNames [nodeObjectPattern a b] = [a, b] := rfl
  refine ⟨h1, h2, h3, h4, ?_, ?_⟩
  · intro P lines code node hP hshape
    unfold getExportedFields
    rw [if_pos rfl]
    show (match P code with
      | none => some []
      | some nodes => some (extractNames nodes)) = some [a, b]
    rw [hP]
    show some (extractNames [node]) = some [a, b]
    rcases hshape with h | h | h | h <;> rw [h]
    · rw [h1]
    · rw [h2]
    · rw [h3]
    · rw [h4]
  · intro exported X
    rw [mem_insertFields]
    simp

theorem claim6_witness :
    getExportedFields (fun _ => some [nodeArrayPattern ("A".toList) ("B".toList)])
        [] ("export const [A, B] = arr;".toList) true = some ["A".toList, "B".toList]
    ∧ (∀ X, X ∈ insertFields ["A".toList] ["A".toList, "B".toList]
        ↔ X ∈ ["A".toList] ∨ X = "A".toList ∨ X = "B".toList) :=
  ⟨(claim6_theorem ("A".toList) ("B".toList)).2.2.2.2.1
      (fun _ => some [nodeArrayPattern ("A".toList) ("B".toList)]) []
      ("export const [A, B] = arr;".toList) (nodeArrayPattern ("A".toList) ("B".toList))
      rfl (Or.inr (Or.inr (Or.inl rfl))),
    fun X => (claim6_theorem ("A".toList) ("B".toList)).2.2.2.2.2 ["A".toList] X⟩

/-! ## Claim C4: termination and fixed point of the purge loop -/

/-- Claim C4 describes the intent, but the code has a termination bug.  On
a text beginning with a collapsible conflict block whose closing `>>>>>>>`
marker is not followed by any newline, the collapse rule "applies"
(`changed = true`) yet removes nothing: `indexOf('\n', headEndB)` is `-1`,
so `headEnd = 0` and `code = newCode.substring(0)`.  One loop iteration
maps `conflictStallText` to itself (first conjunct), so the `while` loop
runs forever; the fuelled model reports the non-termination (second
conjunct).  On every input on which the loop does terminate, its result is
indeed a fixed point (third conjunct). -/
theorem claim4_theorem :
    purgeStep mainLines conflictStallText = some conflictStallText
    ∧ purgeImportedFieldsCode mainLines conflictStallText = none
    ∧ (∀ (lines : List Str) (c r : Str), purgeImportedFieldsCode lines c = some r →
        purgeStep lines r = none ∧ purgeImportedFieldsCode lines r = some r) := by
  have hstall : purgeStep mainLines conflictStallText = some conflictStallText := by decide
  refine ⟨hstall, ?_, fun lines c r h => purge_fixpoint lines c r h⟩
  show purgeGo mainLines (conflictStallText.length + 2) conflictStallText = none
  exact purgeGo_of_stall mainLines conflictStallText hstall _

theorem claim4_witness :
    purgeStep mainLines ("x;".toList) = none
    ∧ purgeImportedFieldsCode mainLines ("x;".toList) = some ("x;".toList) :=
  claim4_theorem.2.2 mainLines ("x;".toList) ("x;".toList) (by decide)

/-! ## Claim C1, counterexample part -/

/-- Claim C1 as stated (for every file tree and configuration) is false:
with the import root `.` and the default output name, the first run writes
the aggregator `./imports.js` inside the import root; the second run then
collects the aggregator file itself, the aggregator text gains a line, and
the second run performs one write, not zero. -/
theorem claim1_counterexample :
    onPreInit cexParser cexOpts cexFs = some (cexFs1, 1)
    ∧ onPreInit cexParser cexOpts cexFs1 = some (cexFs2, 1) := by
  refine ⟨by decide, by decide⟩

/-! ## Claim C5: conflict-block collapse -/

theorem startsWithStr_append (a b : Str) : startsWithStr (a ++ b) a = true := by
  rw [startsWithStr, List.isPrefixOf_iff_prefix]
  exact List.prefix_append a b

theorem containsOur_nil (lines : List Str) (hlines : ∀ l ∈ lines, l ≠ []) :
    containsOurImportStatement lines [] = false := by
  unfold containsOurImportStatement stringIncludesAny
  rw [List.any_eq_false]
  intro l hl
  cases hc : l with
  | nil => exact absurd hc (hlines l hl)
  | cons x t => simp [containsStr]

theorem drop_append_cons (a b : List Char) (c : Char) :
    (a ++ c :: b).drop (a.length + 1) = b := by
  induction a with
  | nil => rfl
  | cons x t ih =>
    show ((x :: (t ++ c :: b)).drop (t.length + 1 + 1)) = b
    rw [List.drop_succ_cons]
    exact ih

/-- How one purge iteration treats a leading conflict block: it collapses
the block to the following text exactly when the code's containment test
holds of both (trimmed) sides, and otherwise does nothing. -/
theorem purgeStep_conflictBlock (lines : List Str) (A M B L R : Str)
    (hlines : ∀ l ∈ lines, l ≠ [])
    (hA : '=' ∉ A) (hM : '\n' ∉ M) (hB : '>' ∉ B) (hL : '\n' ∉ L) :
    purgeStep lines (conflictBlock A M B L R)
      = if (containsOurImportStatement lines (trimStr A)
            && containsOurImportStatement lines (trimStr B)) = true
        then some R else none := by
  have h0 : trimStartStr (conflictBlock A M B L R) = conflictBlock A M B L R := rfl
  have h1 : getFirstImportStatement (conflictBlock A M B L R) = [] := rfl
  have hempty := containsOur_nil lines hlines
  have guard2 : startsWithStr (conflictBlock A M B L R) ("<<<<<<< HEAD".toList) = true :=
    startsWithStr_append _ _
  have hnl0 : charIndexOf? (conflictBlock A M B L R) '\n' = some 12 :=
    charIndexOf?_append ("<<<<<<< HEAD".toList) _ '\n' (by decide)
  have hdrop13 : (conflictBlock A M B L R).drop 13
      = A ++ ("=======".toList ++ (M ++ '\n' :: (B ++ (">>>>>>>".toList ++ (L ++ '\n' :: R))))) := by
    show (("<<<<<<< HEAD\n".toList)
        ++ (A ++ ("=======".toList ++ (M ++ '\n' :: (B ++ (">>>>>>>".toList ++ (L ++ '\n' :: R))))))).drop
        (("<<<<<<< HEAD\n".toList).length) = _
    exact List.drop_left _ _
  have hEQidx : indexOfFrom? (conflictBlock A M B L R) ("=======".toList) 13
      = some (A.length + 13) := by
    show (indexOfStr? ((conflictBlock A M B L R).drop 13) ("=======".toList)).map
        (fun i => i + 13) = some (A.length + 13)
    rw [hdrop13]
    rw [show indexOfStr?
        (A ++ ("=======".toList ++ (M ++ '\n' :: (B ++ (">>>>>>>".toList ++ (L ++ '\n' :: R))))))
        ("=======".toList) = some A.length
      from indexOfStr?_append_needle A
        ("======".toList ++ (M ++ '\n' :: (B ++ (">>>>>>>".toList ++ (L ++ '\n' :: R)))))
        ("======".toList) '=' hA (List.prefix_append _ _)]
    rfl
  have hsliceA : sliceJS (conflictBlock A M B L R) 13 (A.length + 13) = A := by
    show ((conflictBlock A M B L R).take (A.length + 13)).drop 13 = A
    rw [List.drop_take]
    have h13 : A.length + 13 - 13 = A.length := by omega
    rw [h13, hdrop13]
    exact List.take_left _ _
  have hdropEndA : (conflictBlock A M B L R).drop (A.length + 13)
      = "=======".toList ++ (M ++ '\n' :: (B ++ (">>>>>>>".toList ++ (L ++ '\n' :: R)))) := by
    rw [Nat.add_comm A.length 13, ← List.drop_drop, hdrop13]
    exact List.drop_left _ _
  have hnlB : indexOfFrom? (conflictBlock A M B L R) ['\n'] (A.length + 13)
      = some (("=======".toList ++ M).length + (A.length + 13)) := by
    show (indexOfStr? ((conflictBlock A M B L R).drop (A.length + 13)) ['\n']).map
        (fun i => i + (A.length + 13)) = _
    rw [hdropEndA]
    have hmem : '\n' ∉ "=======".toList ++ M := by
      intro hmem
      rcases List.mem_append.mp hmem with h | h
      · revert h
        decide
      · exact hM h
    rw [show indexOfStr?
        ("=======".toList ++ (M ++ '\n' :: (B ++ (">>>>>>>".toList ++ (L ++ '\n' :: R))))) ['\n']
        = some (("=======".toList ++ M).length)
      from charIndexOf?_append ("=======".toList ++ M)
        (B ++ (">>>>>>>".toList ++ (L ++ '\n' :: R))) '\n' hmem]
    rfl
  have hdropStartB : (conflictBlock A M B L R).drop
      (("=======".toList ++ M).length + (A.length + 13) + 1)
      = B ++ (">>>>>>>".toList ++ (L ++ '\n' :: R)) := by
    have harith : ("=======".toList ++ M).length + (A.length + 13) + 1
        = (A.length + 13) + (("=======".toList ++ M).length + 1) := by omega
    rw [harith, ← List.drop_drop, hdropEndA]
    exact drop_append_cons ("=======".toList ++ M) _ '\n'
  have hGTidx : indexOfFrom? (conflictBlock A M B L R) (">>>>>>>".toList)
      (("=======".toList ++ M).length + (A.length + 13) + 1)
      = some (B.length + (("=======".toList ++ M).length + (A.length + 13) + 1)) := by
    show (indexOfStr? ((conflictBlock A M B L R).drop
        (("=======".toList ++ M).length + (A.length + 13) + 1)) (">>>>>>>".toList)).map
        (fun i => i + (("=======".toList ++ M).length + (A.length + 13) + 1)) = _
    rw [hdropStartB]
    rw [show indexOfStr? (B ++ (">>>>>>>".toList ++ (L ++ '\n' :: R))) (">>>>>>>".toList)
        = some B.length
      from indexOfStr?_append_needle B (">>>>>>".toList ++ (L ++ '\n' :: R))
        (">>>>>>".toList) '>' hB (List.prefix_append _ _)]
    rfl
  have hsliceB : sliceJS (conflictBlock A M B L R)
      (("=======".toList ++ M).length + (A.length + 13) + 1)
      (B.length + (("=======".toList ++ M).length + (A.length + 13) + 1)) = B := by
    show ((conflictBlock A M B L R).take
        (B.length + (("=======".toList ++ M).length + (A.length + 13) + 1))).drop
        (("=======".toList ++ M).length + (A.length + 13) + 1) = B
    rw [List.drop_take]
    have h1 : B.length + (("=======".toList ++ M).length + (A.length + 13) + 1)
        - (("=======".toList ++ M).length + (A.length + 13) + 1) = B.length := by omega
    rw [h1, hdropStartB]
    exact List.take_left _ _
  have hdropEndB : (conflictBlock A M B L R).drop
      (B.length + (("=======".toList ++ M).length + (A.length + 13) + 1))
      = ">>>>>>>".toList ++ (L ++ '\n' :: R) := by
    have harith : B.length + (("=======".toList ++ M).length + (A.length + 13) + 1)
        = (("=======".toList ++ M).length + (A.length + 13) + 1) + B.length := by omega
    rw [harith, ← List.drop_drop, hdropStartB]
    exact List.drop_left _ _
  have hnlEnd : indexOfFrom? (conflictBlock A M B L R) ['\n']
      (B.length + (("=======".toList ++ M).length + (A.length + 13) + 1))
      = some ((">>>>>>>".toList ++ L).length
          + (B.length + (("=======".toList ++ M).length + (A.length + 13) + 1))) := by
    show (indexOfStr? ((conflictBlock A M B L R).drop
        (B.length + (("=======".toList ++ M).length + (A.length + 13) + 1))) ['\n']).map
        (fun i => i + (B.length + (("=======".toList ++ M).length + (A.length + 13) + 1))) = _
    rw [hdropEndB]
    have hmem : '\n' ∉ ">>>>>>>".toList ++ L := by
      intro hmem
      rcases List.mem_append.mp hmem with h | h
      · revert h
        decide
      · exact hL h
    rw [show indexOfStr? (">>>>>>>".toList ++ (L ++ '\n' :: R)) ['\n']
        = some ((">>>>>>>".toList ++ L).length)
      from charIndexOf?_append (">>>>>>>".toList ++ L) R '\n' hmem]
    rfl
  have hdropFinal : (conflictBlock A M B L R).drop
      ((">>>>>>>".toList ++ L).length
        + (B.length + (("=======".toList ++ M).length + (A.length + 13) + 1)) + 1) = R := by
    have harith : (">>>>>>>".toList ++ L).length
        + (B.length + (("=======".toList ++ M).length + (A.length + 13) + 1)) + 1
        = (B.length + (("=======".toList ++ M).length + (A.length + 13) + 1))
            + ((">>>>>>>".toList ++ L).length + 1) := by omega
    rw [harith, ← List.drop_drop, hdropEndB]
    exact drop_append_cons (">>>>>>>".toList ++ L) R '\n'
  unfold purgeStep
  simp only [h0, h1, hempty, guard2, hnl0, Nat.reduceAdd, Bool.false_eq_true, if_false, if_true,
    eq_self_iff_true, hEQidx, hsliceA, hnlB, hGTidx, hsliceB]
  by_cases hcond : (containsOurImportStatement lines (trimStr A)
      && containsOurImportStatement lines (trimStr B)) = true
  · rw [if_pos hcond, if_pos hcond]
    simp only [hnlEnd, hdropFinal]
  · rw [if_neg hcond, if_neg hcond]
/-- Claim C5 as stated is false in its "leading statement" reading: here
the first side's leading statement is `q` (not an import statement at all,
and free of the generated-line marker), yet because the side's *second*
line contains `./imports.js';` the code's whole-side containment test
succeeds and the block is collapsed to the following text, not left
untouched. -/
theorem claim5_counterexample :
    containsOurImportStatement mainLines (getFirstCodeLine conflictCexSideA) = false
    ∧ getFirstImportStatement conflictCexSideA = []
    ∧ containsOurImportStatement mainLines conflictCexSideA = true
    ∧ purgeStep mainLines conflictCexText = some ("rest".toList)
    ∧ purgeImportedFieldsCode mainLines conflictCexText = some ("rest".toList) := by
  refine ⟨by decide, by decide, by decide, by decide, by decide⟩

/-- Claim C5 (amended): for a text beginning with a three-way conflict
block, purge collapses the entire block to the text following it exactly
when **both sides' entire (trimmed) text** — not merely their leading
statements — contains a generated-import marker `./<name>';`; if either
side's text lacks it, the block (indeed the whole text) is left untouched.
The hypotheses keep the block well-formed: the sides do not contain the
respective marker characters, and the marker lines' tails contain no
newline. -/
theorem claim5_theorem (lines : List Str) (A M B L R : Str)
    (hlines : ∀ l ∈ lines, l ≠ [])
    (hA : '=' ∉ A) (hM : '\n' ∉ M) (hB : '>' ∉ B) (hL : '\n' ∉ L) :
    (containsOurImportStatement lines (trimStr A) = true →
      containsOurImportStatement lines (trimStr B) = true →
      purgeStep lines (conflictBlock A M B L R) = some R)
    ∧ ((containsOurImportStatement lines (trimStr A) = true
        ∧ containsOurImportStatement lines (trimStr B) = true → False) →
      purgeStep lines (conflictBlock A M B L R) = none
      ∧ purgeImportedFieldsCode lines (conflictBlock A M B L R)
          = some (conflictBlock A M B L R)) := by
  have h := purgeStep_conflictBlock lines A M B L R hlines hA hM hB hL
  constructor
  · intro h1 h2
    rw [h, if_pos (by rw [h1, h2]; rfl)]
  · intro hno
    have hcond : ¬ ((containsOurImportStatement lines (trimStr A)
        && containsOurImportStatement lines (trimStr B)) = true) := by
      intro hc
      exact hno ⟨(Bool.and_eq_true _ _).mp hc |>.1, (Bool.and_eq_true _ _).mp hc |>.2⟩
    have hstep : purgeStep lines (conflictBlock A M B L R) = none := by
      rw [h, if_neg hcond]
    exact ⟨hstep, purge_of_step_none lines _ hstep⟩

theorem claim5_witness :
    purgeStep mainLines
      (conflictBlock
        ("import ".toList ++ lbrace :: "A".toList ++ rbrace :: " from './imports.js';\n".toList)
        [] ("import ".toList ++ lbrace :: "B".toList ++ rbrace :: " from './imports.js';\n".toList)
        [] ("rest".toList))
      = some ("rest".toList) :=
  (claim5_theorem mainLines
    ("import ".toList ++ lbrace :: "A".toList ++ rbrace :: " from './imports.js';\n".toList)
    [] ("import ".toList ++ lbrace :: "B".toList ++ rbrace :: " from './imports.js';\n".toList)
    [] ("rest".toList)
    (by decide) (by decide) (by decide) (by decide) (by decide)).1 (by decide) (by decide)

/-! ## Claim C1, amended part: the stack of lemmas -/

theorem setFCL_eq (fs : FS) (file new code : Str) :
    setFileContentIfFirstCodeLineIsDifferent fs file new (some code)
      = if getFirstCodeLine code ≠ getFirstCodeLine new
        then (writeFS fs file new, 1) else (fs, 0) := rfl

theorem modifyFile_eq_content (P : Parser) (opts : PluginOptions) (g : List Str) (fs : FS)
    (f : Str) :
    modifyFile P opts g fs f
      = (modifyFileContent P opts g f ((readFile? fs f).getD [])).map
          (fun r => (if r.snd = 1 then writeFS fs f r.fst else fs, r.snd)) := by
  unfold modifyFile modifyFileContent
  by_cases hjs : isFileOfType f opts.fileExtensionsJs = true
  · rw [if_pos hjs, if_pos hjs]
    cases hp : purgeImportedFieldsCode (optionLines opts) ((readFile? fs f).getD []) with
    | none => rfl
    | some purgedCode =>
      dsimp only
      cases hout : purgeOutputName opts.outputName with
      | none =>
        dsimp only
        rw [setFCL_eq]
        by_cases hcl : getFirstCodeLine ((readFile? fs f).getD [])
            ≠ getFirstCodeLine purgedCode
        · rw [if_pos hcl, if_pos hcl]
          rfl
        · rw [if_neg hcl, if_neg hcl]
          rfl
      | some nm =>
        dsimp only
        cases hg : getExportedFields P (optionLines opts) purgedCode true with
        | none => rfl
        | some fields =>
          dsimp only
          cases hfrom : importLineFromOf f nm with
          | none => rfl
          | some importLineFrom =>
            dsimp only
            rw [setFCL_eq]
            by_cases hcl : getFirstCodeLine ((readFile? fs f).getD [])
                ≠ getFirstCodeLine
                  (modifyNewImportLine (optionLines opts) ((readFile? fs f).getD [])
                      (joinSep (", ".toList) (importLineFieldsList g fields)) importLineFrom
                    ++ '\n' :: purgedCode)
            · rw [if_pos hcl, if_pos hcl]
              rfl
            · rw [if_neg hcl, if_neg hcl]
              rfl
  · rw [if_neg hjs, if_neg hjs]
    rfl

/-! ### Filesystem-model lemmas -/

theorem readFile?_writeFS (fs : FS) (f c g : Str) :
    readFile? (writeFS fs f c) g = if g = f then some c else readFile? fs g := by
  induction fs with
  | nil =>
    show (if f = g then some c else readFile? [] g) = if g = f then some c else readFile? [] g
    by_cases h : f = g
    · rw [if_pos h, if_pos h.symm]
    · rw [if_neg h, if_neg (fun hh => h hh.symm)]
  | cons kv t ih =>
    obtain ⟨k, v⟩ := kv
    show readFile? (if k = f then (k, c) :: t else (k, v) :: writeFS t f c) g = _
    by_cases hk : k = f
    · rw [if_pos hk]
      show (if k = g then some c else readFile? t g) = _
      by_cases hg : g = f
      · rw [if_pos (by rw [hk, hg]), if_pos hg]
      · have hkg : ¬ k = g := fun hh => hg (by rw [← hh, hk])
        rw [if_neg hkg, if_neg hg]
        show readFile? t g = readFile? ((k, v) :: t) g
        rw [show readFile? ((k, v) :: t) g
            = if k = g then some v else readFile? t g from rfl, if_neg hkg]
    · rw [if_neg hk]
      show (if k = g then some v else readFile? (writeFS t f c) g) = _
      by_cases hkg : k = g
      · have hg : ¬ g = f := fun hh => hk (by rw [hkg, hh])
        rw [if_pos hkg, if_neg hg]
        rw [show readFile? ((k, v) :: t) g
            = if k = g then some v else readFile? t g from rfl, if_pos hkg]
      · rw [if_neg hkg, ih]
        by_cases hg : g = f
        · rw [if_pos hg, if_pos hg]
        · rw [if_neg hg, if_neg hg]
          rw [show readFile? ((k, v) :: t) g
              = if k = g then some v else readFile? t g from rfl, if_neg hkg]

theorem writeFS_keys (fs : FS) (f c : Str) (h : readFile? fs f ≠ none) :
    (writeFS fs f c).map Prod.fst = fs.map Prod.fst := by
  induction fs with
  | nil => exact absurd rfl h
  | cons kv t ih =>
    obtain ⟨k, v⟩ := kv
    show (if k = f then (k, c) :: t else (k, v) :: writeFS t f c).map Prod.fst = _
    by_cases hk : k = f
    · rw [if_pos hk]
      rfl
    · rw [if_neg hk]
      have h2 : readFile? t f ≠ none := by
        intro hnone
        apply h
        show (if k = f then some v else readFile? t f) = none
        rw [if_neg hk, hnone]
      show k :: (writeFS t f c).map Prod.fst = k :: t.map Prod.fst
      rw [ih h2]

theorem writeFS_absent (fs : FS) (f c : Str) (h : readFile? fs f = none) :
    writeFS fs f c = fs ++ [(f, c)] := by
  induction fs with
  | nil => rfl
  | cons kv t ih =>
    obtain ⟨k, v⟩ := kv
    have hk : ¬ k = f := by
      intro hk
      rw [show readFile? ((k, v) :: t) f
          = if k = f then some v else readFile? t f from rfl, if_pos hk] at h
      cases h
    have h2 : readFile? t f = none := by
      rw [show readFile? ((k, v) :: t) f
          = if k = f then some v else readFile? t f from rfl, if_neg hk] at h
      exact h
    show (if k = f then (k, c) :: t else (k, v) :: writeFS t f c) = _
    rw [if_neg hk, ih h2]
    rfl

theorem readFile?_eq_none_iff (fs : FS) (f : Str) :
    readFile? fs f = none ↔ f ∉ fs.map Prod.fst := by
  induction fs with
  | nil => simp [readFile?]
  | cons kv t ih =>
    obtain ⟨k, v⟩ := kv
    show (if k = f then some v else readFile? t f) = none ↔ _
    by_cases hk : k = f
    · rw [if_pos hk]
      simp [hk]
    · rw [if_neg hk]
      simp only [List.map_cons, List.mem_cons]
      rw [ih]
      constructor
      · rintro h (h1 | h2)
        · exact hk h1.symm
        · exact h h2
      · intro h
        exact fun h2 => h (Or.inr h2)

theorem readFile?_append (a b : FS) (f : Str) :
    readFile? (a ++ b) f
      = match readFile? a f with
        | some v => some v
        | none => readFile? b f := by
  induction a with
  | nil => rfl
  | cons kv t ih =>
    obtain ⟨k, v⟩ := kv
    show (if k = f then some v else readFile? (t ++ b) f) = _
    by_cases hk : k = f
    · rw [if_pos hk]
      rw [show readFile? ((k, v) :: t) f
          = if k = f then some v else readFile? t f from rfl, if_pos hk]
    · rw [if_neg hk, ih]
      rw [show readFile? ((k, v) :: t) f
          = if k = f then some v else readFile? t f from rfl, if_neg hk]

theorem getAllFiles_congr (fs fs' : FS) (r : Str)
    (hkeys : fs.map Prod.fst = fs'.map Prod.fst) :
    getAllFiles fs r = getAllFiles fs' r := by
  unfold getAllFiles
  cases h1 : readFile? fs r with
  | some v =>
    cases h2 : readFile? fs' r with
    | some w => rfl
    | none =>
      rw [readFile?_eq_none_iff, ← hkeys, ← readFile?_eq_none_iff] at h2
      rw [h2] at h1
      cases h1
  | none =>
    cases h2 : readFile? fs' r with
    | some w =>
      rw [readFile?_eq_none_iff, hkeys, ← readFile?_eq_none_iff] at h1
      rw [h1] at h2
      cases h2
    | none => rw [hkeys]

theorem mem_keys_of_mem_getAllFiles (fs : FS) (r f : Str) (h : f ∈ getAllFiles fs r) :
    readFile? fs f ≠ none := by
  unfold getAllFiles at h
  cases hr : readFile? fs r with
  | some v =>
    rw [hr] at h
    rcases List.mem_singleton.mp h with rfl
    rw [hr]
    intro hc
    cases hc
  | none =>
    rw [hr] at h
    have hmem : f ∈ fs.map Prod.fst := List.mem_of_mem_filter h
    intro hc
    rw [readFile?_eq_none_iff] at hc
    exact hc hmem

theorem getAllFiles_append_one (fs : FS) (a c r : Str)
    (hne : r ≠ a) (hnotunder : startsWithStr a (r ++ ['/']) = false) :
    getAllFiles (fs ++ [(a, c)]) r = getAllFiles fs r := by
  unfold getAllFiles
  rw [readFile?_append]
  cases hr : readFile? fs r with
  | some v => rfl
  | none =>
    rw [show readFile? [(a, c)] r = if a = r then some c else none from rfl,
      if_neg (fun hh => hne hh.symm)]
    rw [List.map_append, List.filter_append]
    rw [show List.filter (fun k => startsWithStr k (r ++ ['/'])) (List.map Prod.fst [(a, c)])
        = [] from by simp [List.filter, hnotunder]]
    rw [List.append_nil]

theorem mem_insertCmp (cmp : Str → Str → Int) (x y : Str) (l : List Str) :
    y ∈ insertCmp cmp x l ↔ y = x ∨ y ∈ l := by
  induction l with
  | nil => simp [insertCmp]
  | cons z t ih =>
    unfold insertCmp
    by_cases h : cmp x z ≤ 0
    · rw [if_pos h]
      simp
    · rw [if_neg h]
      simp only [List.mem_cons, ih]
      constructor
      · rintro (h1 | h1 | h1)
        · exact Or.inr (Or.inl h1)
        · exact Or.inl h1
        · exact Or.inr (Or.inr h1)
      · rintro (h1 | h1 | h1)
        · exact Or.inr (Or.inl h1)
        · exact Or.inl h1
        · exact Or.inr (Or.inr h1)

theorem mem_sortCmp (cmp : Str → Str → Int) (y : Str) (l : List Str) :
    y ∈ sortCmp cmp l ↔ y ∈ l := by
  induction l with
  | nil => simp [sortCmp]
  | cons x t ih =>
    unfold sortCmp
    rw [mem_insertCmp, ih]
    simp

/-! ### The synthesized import line under the purge step -/

theorem not_mem_append {c : Char} {a b : Str} (ha : c ∉ a) (hb : c ∉ b) : c ∉ a ++ b :=
  fun h => (List.mem_append.mp h).elim (fun h1 => ha h1) (fun h2 => hb h2)

theorem not_mem_cons {c d : Char} {a : Str} (hd : c ≠ d) (ha : c ∉ a) : c ∉ d :: a :=
  fun h => (List.mem_cons.mp h).elim (fun h1 => hd h1) (fun h2 => ha h2)

theorem take_append_cons (a b : List Char) (c : Char) :
    (a ++ c :: b).take (a.length + 1) = a ++ [c] := by
  induction a with
  | nil => rfl
  | cons x t ih =>
    show ((x :: (t ++ c :: b)).take (t.length + 1 + 1)) = x :: (t ++ [c])
    rw [List.take_succ_cons, ih]

theorem containsStr_of_suffix (a n : Str) : containsStr (a ++ n) n = true := by
  induction a with
  | nil =>
    cases n with
    | nil => rfl
    | cons c t =>
      show ((c :: t).isPrefixOf (c :: t) || containsStr t (c :: t)) = true
      rw [show (c :: t).isPrefixOf (c :: t) = true from
        (List.isPrefixOf_iff_prefix).mpr (List.prefix_refl _)]
      rfl
  | cons c t ih =>
    show (n.isPrefixOf (c :: (t ++ n)) || containsStr (t ++ n) n) = true
    rw [ih, Bool.or_true]

theorem startsWithImportTest_synth (flds p rest : Str) :
    startsWithImportTest (synthImportLine flds p ++ rest) = true := rfl

theorem getFirstImportStatement_synth (flds p rest : Str)
    (hf : ';' ∉ flds) (hp : ';' ∉ p) :
    getFirstImportStatement (synthImportLine flds p ++ '\n' :: rest)
      = synthImportLine flds p := by
  have hshape : synthImportLine flds p ++ '\n' :: rest
      = ("import ".toList ++ lbrace :: flds ++ rbrace :: " from ".toList ++ squote :: p
          ++ [squote]) ++ ';' :: ('\n' :: rest) := by
    simp [synthImportLine, List.append_assoc]
  have hnotin : ';' ∉ ("import ".toList ++ lbrace :: flds ++ rbrace :: " from ".toList
      ++ squote :: p ++ [squote]) := by
    intro h
    rcases List.mem_append.mp h with h | h
    · rcases List.mem_append.mp h with h | h
      · rcases List.mem_append.mp h with h | h
        · rcases List.mem_append.mp h with h | h
          · exact absurd h (by decide)
          · rcases List.mem_cons.mp h with h | h
            · exact absurd h (by decide)
            · exact hf h
        · exact absurd h (by decide)
      · rcases List.mem_cons.mp h with h | h
        · exact absurd h (by decide)
        · exact hp h
    · exact absurd h (by decide)
  unfold getFirstImportStatement
  rw [if_pos (startsWithImportTest_synth flds p ('\n' :: rest))]
  rw [hshape, charIndexOf?_append _ _ ';' hnotin]
  show (_ ++ ';' :: ('\n' :: rest)).take (_ + 1) = synthImportLine flds p
  rw [take_append_cons]
  simp [synthImportLine, List.append_assoc]

theorem purgeStep_synth (lines : List Str) (flds p rest : Str)
    (hf : ';' ∉ flds) (hp : ';' ∉ p)
    (hcont : containsOurImportStatement lines (synthImportLine flds p) = true) :
    purgeStep lines (synthImportLine flds p ++ '\n' :: rest) = some rest := by
  have htrim : trimStartStr (synthImportLine flds p ++ '\n' :: rest)
      = synthImportLine flds p ++ '\n' :: rest := rfl
  have hidx : indexOfFrom? (synthImportLine flds p ++ '\n' :: rest) ['\n']
      (synthImportLine flds p).length = some (0 + (synthImportLine flds p).length) := by
    show (indexOfStr? ((synthImportLine flds p ++ '\n' :: rest).drop
        (synthImportLine flds p).length) ['\n']).map
        (fun i => i + (synthImportLine flds p).length) = _
    rw [List.drop_left]
    simp [indexOfStr?, List.isPrefixOf]
  have hdrop : (synthImportLine flds p ++ '\n' :: rest).drop
      (0 + (synthImportLine flds p).length + 1) = rest := by
    rw [Nat.zero_add, ← List.drop_drop, List.drop_left]
    rfl
  unfold purgeStep
  dsimp only
  rw [htrim, getFirstImportStatement_synth flds p rest hf hp, hcont]
  rw [if_pos rfl, hidx]
  show some ((synthImportLine flds p ++ '\n' :: rest).drop
    (0 + (synthImportLine flds p).length + 1)) = some rest
  rw [hdrop]

theorem purge_synth (lines : List Str) (flds p purged : Str)
    (hf : ';' ∉ flds) (hp : ';' ∉ p)
    (hcont : containsOurImportStatement lines (synthImportLine flds p) = true)
    (hstep : purgeStep lines purged = none) :
    purgeImportedFieldsCode lines (synthImportLine flds p ++ '\n' :: purged)
      = some purged :=
  purge_of_two_steps lines _ purged (purgeStep_synth lines flds p purged hf hp hcont)
    hstep

theorem repeatStr_succ_right (s : Str) (j : Nat) :
    repeatStr s (j + 1) = repeatStr s j ++ s := by
  induction j with
  | zero =>
    show s ++ [] = [] ++ s
    simp
  | succ j ih =>
    show s ++ repeatStr s (j + 1) = (s ++ repeatStr s j) ++ s
    rw [ih, List.append_assoc]

/-- The line the tool writes always contains its own recognition marker
`./<name>';`: the module path ends in `./<name>` (possibly preceded by
`../` hops whose final `/` re-creates the pattern). -/
theorem synth_contains_marker (flds nm : Str) (k : Nat) :
    containsStr (synthImportLine flds ('.' :: '/' :: (repeatStr ("../".toList) k ++ nm)))
      ('.' :: '/' :: (nm ++ [squote, ';'])) = true := by
  cases k with
  | zero =>
    rw [show synthImportLine flds ('.' :: '/' :: (repeatStr ("../".toList) 0 ++ nm))
        = ("import ".toList ++ lbrace :: flds ++ rbrace :: " from ".toList ++ [squote])
          ++ ('.' :: '/' :: (nm ++ [squote, ';'])) from by
      simp [synthImportLine, repeatStr, List.append_assoc]]
    exact containsStr_of_suffix _ _
  | succ j =>
    rw [show synthImportLine flds
          ('.' :: '/' :: (repeatStr ("../".toList) (j + 1) ++ nm))
        = ("import ".toList ++ lbrace :: flds ++ rbrace :: " from ".toList
            ++ squote :: '.' :: '/' :: (repeatStr ("../".toList) j ++ ['.']))
          ++ ('.' :: '/' :: (nm ++ [squote, ';'])) from by
      rw [repeatStr_succ_right]
      simp [synthImportLine, List.append_assoc]]
    exact containsStr_of_suffix _ _

theorem containsOur_of_marker (opts : PluginOptions) (nm s : Str)
    (hout : purgeOutputName opts.outputName = some nm)
    (h : containsStr s ('.' :: '/' :: (nm ++ [squote, ';'])) = true) :
    containsOurImportStatement (optionLines opts) s = true := by
  unfold containsOurImportStatement stringIncludesAny optionLines possibleImportLines
  rw [hout]
  exact List.any_eq_true.mpr
    ⟨'.' :: '/' :: (nm ++ [squote, ';']),
      List.mem_map.mpr ⟨nm, List.mem_append.mpr (Or.inl (List.mem_singleton.mpr rfl)), rfl⟩,
      h⟩

/-! ### Plain characters and joined identifier lists -/

theorem plainChar_facts (c : Char) (h : plainChar c = true) :
    isSpaceChar c = false ∧ c ≠ ';' ∧ c ≠ lbrace ∧ c ≠ rbrace ∧ c ≠ squote
      ∧ c ≠ dquote ∧ c ≠ ',' := by
  simp only [plainChar, Bool.and_eq_true, Bool.not_eq_true', decide_eq_true_eq] at h
  refine ⟨?_, ?_, ?_, ?_, ?_, ?_, ?_⟩ <;> tauto

theorem plainChar_ne_newline (c : Char) (h : plainChar c = true) : c ≠ '\n' := by
  intro he
  have h1 := (plainChar_facts c h).1
  rw [he] at h1
  exact absurd h1 (by decide)

theorem fldsChar_facts (c : Char) (h : fldsChar c = true) :
    c ≠ ';' ∧ c ≠ '\n' ∧ c ≠ rbrace := by
  have h2 : (plainChar c || decide (c = ',') || decide (c = ' ')) = true := h
  rw [Bool.or_eq_true, Bool.or_eq_true] at h2
  rcases h2 with (hp | hc) | hs
  · exact ⟨(plainChar_facts c hp).2.1, plainChar_ne_newline c hp,
      (plainChar_facts c hp).2.2.2.1⟩
  · rw [of_decide_eq_true hc]
    refine ⟨by decide, by decide, by decide⟩
  · rw [of_decide_eq_true hs]
    refine ⟨by decide, by decide, by decide⟩

theorem all_fldsChar_not_mem (s : Str) (h : s.all fldsChar = true) :
    ';' ∉ s ∧ '\n' ∉ s ∧ rbrace ∉ s := by
  rw [List.all_eq_true] at h
  refine ⟨fun hm => ?_, fun hm => ?_, fun hm => ?_⟩
  · exact (fldsChar_facts ';' (h _ hm)).1 rfl
  · exact (fldsChar_facts '\n' (h _ hm)).2.1 rfl
  · exact (fldsChar_facts rbrace (h _ hm)).2.2 rfl

theorem all_plainChar_not_mem (s : Str) (h : s.all plainChar = true) :
    ';' ∉ s ∧ '\n' ∉ s ∧ rbrace ∉ s := by
  rw [List.all_eq_true] at h
  refine ⟨fun hm => ?_, fun hm => ?_, fun hm => ?_⟩
  · exact (plainChar_facts ';' (h _ hm)).2.1 rfl
  · exact plainChar_ne_newline '\n' (h _ hm) rfl
  · exact (plainChar_facts rbrace (h _ hm)).2.2.2.1 rfl

theorem all_plain_fldsChar (s : Str) (h : s.all plainChar = true) :
    s.all fldsChar = true := by
  rw [List.all_eq_true] at h ⊢
  intro c hc
  have : fldsChar c = (plainChar c || decide (c = ',') || decide (c = ' ')) := rfl
  rw [this, h c hc]
  rfl

theorem fldsOk_not_mem (s : Str) (h : fldsOk s = true) :
    ';' ∉ s ∧ '\n' ∉ s ∧ rbrace ∉ s := by
  unfold fldsOk at h
  rw [Bool.or_eq_true] at h
  cases h with
  | inl he =>
    rw [List.isEmpty_iff] at he
    rw [he]
    refine ⟨by simp, by simp, by simp⟩
  | inr hr =>
    rw [Bool.and_eq_true, Bool.and_eq_true] at hr
    exact all_fldsChar_not_mem s hr.1.1

theorem plainStr_parts (s : Str) (h : plainStr s = true) :
    s ≠ [] ∧ s.all plainChar = true := by
  unfold plainStr at h
  rw [Bool.and_eq_true, Bool.not_eq_true'] at h
  refine ⟨?_, h.2⟩
  intro he
  rw [he] at h
  exact absurd h.1 (by decide)

theorem headD_append_ne (x r : Str) (d : Char) (hx : x ≠ []) :
    (x ++ r).headD d = x.headD d := by
  cases x with
  | nil => exact absurd rfl hx
  | cons a t => rfl

theorem getLastD_append_ne (x r : Str) (d : Char) (hr : r ≠ []) :
    (x ++ r).getLastD d = r.getLastD d := by
  rcases List.eq_nil_or_concat r with he | ⟨L, b, hL⟩
  · exact absurd he hr
  · rw [List.concat_eq_append] at hL
    rw [hL, ← List.append_assoc, List.getLastD_concat, List.getLastD_concat]

theorem append_ne_nil_left (x r : Str) (hx : x ≠ []) : x ++ r ≠ [] := by
  intro hh
  rw [List.append_eq_nil] at hh
  exact hx hh.1

theorem joinSep_ne_nil (sep x : Str) (t : List Str) (hx : x ≠ []) :
    joinSep sep (x :: t) ≠ [] := by
  cases t with
  | nil => exact hx
  | cons y t2 =>
    show (x ++ sep) ++ joinSep sep (y :: t2) ≠ []
    exact append_ne_nil_left _ _ (append_ne_nil_left _ _ hx)

theorem joinSep_all_fldsChar (names : List Str)
    (h : ∀ n ∈ names, plainStr n = true) :
    (joinSep (", ".toList) names).all fldsChar = true := by
  induction names with
  | nil => rfl
  | cons x t ih =>
    have hxall : x.all fldsChar = true :=
      all_plain_fldsChar x (plainStr_parts x (h x (List.mem_cons_self x t))).2
    cases t with
    | nil => exact hxall
    | cons y t2 =>
      show ((x ++ ", ".toList) ++ joinSep (", ".toList) (y :: t2)).all fldsChar = true
      rw [List.all_append, List.all_append, hxall,
        ih (fun n hn => h n (List.mem_cons_of_mem x hn))]
      rfl

theorem joinSep_headD (names : List Str) (h : ∀ n ∈ names, plainStr n = true)
    (hne : names ≠ []) :
    plainChar ((joinSep (", ".toList) names).headD ' ') = true := by
  cases names with
  | nil => exact absurd rfl hne
  | cons x t =>
    obtain ⟨hxne, hxall⟩ := plainStr_parts x (h x (List.mem_cons_self x t))
    have hxhd : plainChar (x.headD ' ') = true := by
      cases x with
      | nil => exact absurd rfl hxne
      | cons a b => exact (List.all_eq_true.mp hxall) a (List.mem_cons_self a b)
    cases t with
    | nil => exact hxhd
    | cons y t2 =>
      show plainChar (((x ++ ", ".toList) ++ joinSep (", ".toList) (y :: t2)).headD ' ')
        = true
      rw [headD_append_ne _ _ _ (append_ne_nil_left _ _ hxne), headD_append_ne _ _ _ hxne]
      exact hxhd

theorem joinSep_getLastD (names : List Str) (h : ∀ n ∈ names, plainStr n = true)
    (hne : names ≠ []) :
    plainChar ((joinSep (", ".toList) names).getLastD ' ') = true := by
  induction names with
  | nil => exact absurd rfl hne
  | cons x t ih =>
    obtain ⟨hxne, hxall⟩ := plainStr_parts x (h x (List.mem_cons_self x t))
    cases t with
    | nil =>
      rcases List.eq_nil_or_concat x with he | ⟨L, b, hL⟩
      · exact absurd he hxne
      · rw [List.concat_eq_append] at hL
        show plainChar (x.getLastD ' ') = true
        rw [hL, List.getLastD_concat]
        exact (List.all_eq_true.mp hxall) b
          (by rw [hL]; exact List.mem_append.mpr (Or.inr (List.mem_singleton.mpr rfl)))
    | cons y t2 =>
      have hyne : y ≠ [] :=
        (plainStr_parts y (h y (List.mem_cons_of_mem x (List.mem_cons_self y t2)))).1
      show plainChar (((x ++ ", ".toList) ++ joinSep (", ".toList) (y :: t2)).getLastD ' ')
        = true
      rw [getLastD_append_ne _ _ _ (joinSep_ne_nil _ _ _ hyne)]
      exact ih (fun n hn => h n (List.mem_cons_of_mem x hn)) (List.cons_ne_nil y t2)

/-- A `", "`-join of nonempty all-plain strings is a well-formed
identifier list. -/
theorem fldsOk_joinSep (names : List Str) (h : ∀ n ∈ names, plainStr n = true) :
    fldsOk (joinSep (", ".toList) names) = true := by
  cases names with
  | nil => rfl
  | cons x t =>
    unfold fldsOk
    rw [joinSep_all_fldsChar _ h, joinSep_headD _ h (List.cons_ne_nil x t),
      joinSep_getLastD _ h (List.cons_ne_nil x t)]
    simp

theorem repeatStr_all (q : Char → Bool) (s : Str) (hq : s.all q = true) (k : Nat) :
    (repeatStr s k).all q = true := by
  induction k with
  | zero => rfl
  | succ j ih =>
    show (s ++ repeatStr s j).all q = true
    rw [List.all_append, hq, ih]
    rfl

theorem path_plain (nm : Str) (k : Nat) (hnm : nm.all plainChar = true) :
    ('.' :: '/' :: (repeatStr ("../".toList) k ++ nm)).all plainChar = true := by
  have h1 : plainChar '.' = true := by decide
  have h2 : plainChar '/' = true := by decide
  rw [List.all_cons, List.all_cons, List.all_append, h1, h2, hnm,
    repeatStr_all _ _ (by decide) k]
  rfl

/-! ### The matcher on the tool's own generated lines -/

theorem takeWhile_all_eq (q : Char → Bool) (l : Str) (h : l.all q = true) :
    l.takeWhile q = l := by
  induction l with
  | nil => rfl
  | cons a t ih =>
    rw [List.all_cons, Bool.and_eq_true] at h
    rw [List.takeWhile_cons, h.1, if_pos rfl, ih h.2]

theorem range_reverse_succ (n : Nat) :
    (List.range (n + 1)).reverse = n :: (List.range n).reverse := by
  rw [List.range_succ, List.reverse_append]
  rfl

/-- `.*(['"]\s*;[\s\S]*)` on `p'` followed by `';`: group 3 is exactly
`';` (the scan from the right hits the closing quote second). -/
theorem matchTail_plain (p : Str) (hp : p.all plainChar = true) :
    matchTail (p ++ [squote, ';']) = some [squote, ';'] := by
  have hall : (p ++ [squote, ';']).all (fun c => decide (c ≠ '\n')) = true := by
    rw [List.all_append]
    rw [show p.all (fun c => decide (c ≠ '\n')) = true from
      List.all_eq_true.mpr (fun c hc =>
        decide_eq_true (plainChar_ne_newline c ((List.all_eq_true.mp hp) c hc)))]
    rfl
  have htw : (p ++ [squote, ';']).takeWhile (fun c => decide (c ≠ '\n'))
      = p ++ [squote, ';'] := takeWhile_all_eq _ _ hall
  have hlen : (p ++ [squote, ';']).length = p.length + 1 + 1 := by
    rw [List.length_append]
    rfl
  unfold matchTail
  rw [htw, hlen]
  dsimp only
  rw [range_reverse_succ, range_reverse_succ]
  rw [List.findSome?_cons]
  rw [drop_append_cons]
  dsimp only
  rw [if_neg (by decide)]
  dsimp only
  rw [List.findSome?_cons]
  rw [List.drop_left]
  dsimp only
  rw [if_pos (by decide)]

/-- The deterministic part of the matcher consumes exactly
`import {` when the region that follows starts with a non-space
character. -/
theorem matchReplPrefix_concrete (X : Str) :
    matchReplPrefix ("import ".toList ++ (lbrace :: X))
      = some (([] : Str) ++ "import".toList ++ [' ']
            ++ lbrace :: X.takeWhile (fun c => isSpaceChar c),
          X.drop (X.takeWhile (fun c => isSpaceChar c)).length) := rfl

theorem matchReplPrefix_head (hd : Char) (tl : Str) (hhd : isSpaceChar hd = false) :
    matchReplPrefix ("import ".toList ++ (lbrace :: (hd :: tl)))
      = some ("import ".toList ++ [lbrace], hd :: tl) := by
  have hw3 : (hd :: tl).takeWhile (fun c => isSpaceChar c) = [] := by
    rw [List.takeWhile_cons, hhd]
    rfl
  rw [matchReplPrefix_concrete (hd :: tl), hw3]
  rfl

/-- The backtracking core on a generated region: the split with `[\S,]`
on the last identifier character wins (the split on `}` itself fails,
because a second `}` is required further right). -/
theorem matchReplCore_synth (flds' : Str) (c : Char) (p : Str)
    (hall : (flds' ++ [c]).all fldsChar = true) (hc : plainChar c = true)
    (hp : p.all plainChar = true) :
    matchReplCore ((flds' ++ [c])
        ++ (rbrace :: (" from ".toList ++ (squote :: (p ++ [squote, ';'])))))
      = some (c :: (rbrace :: (" from ".toList ++ [squote])), [squote, ';']) := by
  have hrb : rbrace ∉ flds' ++ [c] := (all_fldsChar_not_mem _ hall).2.2
  have hfb : charIndexOf? ((flds' ++ [c])
        ++ (rbrace :: (" from ".toList ++ (squote :: (p ++ [squote, ';']))))) rbrace
      = some (flds' ++ [c]).length :=
    charIndexOf?_append _ _ rbrace hrb
  have hlen : (flds' ++ [c]).length = flds'.length + 1 := by simp
  have hfail : matchAtSplit ((flds' ++ [c])
      ++ (rbrace :: (" from ".toList ++ (squote :: (p ++ [squote, ';'])))))
      (flds'.length + 1) = none := by
    have hdrop : ((flds' ++ [c])
        ++ (rbrace :: (" from ".toList ++ (squote :: (p ++ [squote, ';']))))).drop
          (flds'.length + 1)
        = rbrace :: (" from ".toList ++ (squote :: (p ++ [squote, ';']))) := by
      rw [List.append_assoc, List.singleton_append]
      exact drop_append_cons _ _ _
    unfold matchAtSplit
    rw [hdrop]
    rfl
  have hwin : matchAtSplit ((flds' ++ [c])
      ++ (rbrace :: (" from ".toList ++ (squote :: (p ++ [squote, ';'])))))
      flds'.length
      = some (c :: (rbrace :: (" from ".toList ++ [squote])), [squote, ';']) := by
    have hdrop : ((flds' ++ [c])
        ++ (rbrace :: (" from ".toList ++ (squote :: (p ++ [squote, ';']))))).drop
          flds'.length
        = c :: (rbrace :: (" from ".toList ++ (squote :: (p ++ [squote, ';'])))) := by
      rw [List.append_assoc, List.singleton_append]
      exact List.drop_left flds' _
    have hsp : isSpaceChar c = false := (plainChar_facts c hc).1
    unfold matchAtSplit
    rw [hdrop]
    show (if isSpaceChar c = true then none
        else match matchBraceFrom (rbrace :: (" from ".toList
            ++ (squote :: (p ++ [squote, ';'])))) with
          | none => none
          | some (g2tail, afterQuote) =>
            match matchTail afterQuote with
            | none => none
            | some p3 => some (c :: g2tail, p3)) = _
    rw [hsp, if_neg (by decide)]
    rw [show matchBraceFrom (rbrace :: (" from ".toList
        ++ (squote :: (p ++ [squote, ';']))))
      = some (rbrace :: " from ".toList ++ [squote], p ++ [squote, ';']) from rfl]
    dsimp only
    rw [matchTail_plain p hp]
    rfl
  unfold matchReplCore
  rw [hfb, hlen]
  dsimp only
  rw [range_reverse_succ, range_reverse_succ]
  rw [List.findSome?_cons]
  rw [hfail]
  dsimp only
  rw [List.findSome?_cons]
  rw [hwin]

/-- The right-nested shape of a generated import line. -/
theorem synth_shape (flds p : Str) :
    synthImportLine flds p
      = "import ".toList ++ (lbrace :: (flds
          ++ (rbrace :: (" from ".toList ++ (squote :: (p ++ [squote, ';'])))))) := by
  simp [synthImportLine, List.append_assoc]

/-- `regexImportReplacer` on a generated line with a nonempty identifier
list: group 1 is `import {`, group 2 is the last identifier character
followed by `} from '`, group 3 is `';`. -/
theorem matchRepl_synth (flds p : Str) (hne : flds ≠ [])
    (hall : flds.all fldsChar = true) (hhead : plainChar (flds.headD ' ') = true)
    (hlast : plainChar (flds.getLastD ' ') = true) (hp : p.all plainChar = true) :
    matchRepl (synthImportLine flds p)
      = some ("import ".toList ++ [lbrace],
          flds.getLastD ' ' :: (rbrace :: " from ".toList ++ [squote]),
          [squote, ';']) := by
  obtain ⟨hd, tl, hflds⟩ : ∃ hd tl, flds = hd :: tl := by
    cases flds with
    | nil => exact absurd rfl hne
    | cons a b => exact ⟨a, b, rfl⟩
  have hhd : isSpaceChar hd = false := by
    have h1 := (plainChar_facts _ hhead).1
    rw [hflds] at h1
    exact h1
  rcases List.eq_nil_or_concat flds with he | ⟨L, b, hL⟩
  · exact absurd he hne
  rw [List.concat_eq_append] at hL
  have hcb : plainChar b = true := by
    have := hlast
    rw [hL, List.getLastD_concat] at this
    exact this
  have hgld : flds.getLastD ' ' = b := by rw [hL, List.getLastD_concat]
  unfold matchRepl
  rw [synth_shape]
  rw [show flds ++ (rbrace :: (" from ".toList ++ (squote :: (p ++ [squote, ';']))))
      = hd :: (tl ++ (rbrace :: (" from ".toList ++ (squote :: (p ++ [squote, ';'])))))
    from by rw [hflds]; rfl]
  rw [matchReplPrefix_head hd _ hhd]
  show (match matchReplCore (hd :: (tl
      ++ (rbrace :: (" from ".toList ++ (squote :: (p ++ [squote, ';'])))))) with
    | none => none
    | some (p2, p3) => some ("import ".toList ++ [lbrace], p2, p3)) = _
  rw [show hd :: (tl ++ (rbrace :: (" from ".toList ++ (squote :: (p ++ [squote, ';'])))))
      = (L ++ [b]) ++ (rbrace :: (" from ".toList ++ (squote :: (p ++ [squote, ';']))))
    from by rw [← hL, hflds]; rfl]
  rw [matchReplCore_synth L b p (by rw [← hL]; exact hall) hcb hp]
  rw [hgld]
  rfl

/-- The matcher rejects a generated line with an empty identifier list
(group 2 needs a character in front of the `}`). -/
theorem matchRepl_synth_nil (p : Str) : matchRepl (synthImportLine [] p) = none := rfl

/-- The replacement callback on a clean generated line rebuilds exactly
the synthesized line for the new identifier list and path. -/
theorem replaceImportLine_synth (flds p nf nfrom : Str) (hne : flds ≠ [])
    (hok : fldsOk flds = true) (hp : p.all plainChar = true) :
    replaceImportLine (synthImportLine flds p) nf nfrom
      = synthImportLine nf nfrom := by
  have hok' := hok
  unfold fldsOk at hok'
  rw [Bool.or_eq_true] at hok'
  cases hok' with
  | inl he =>
    exfalso
    rw [List.isEmpty_iff] at he
    exact hne he
  | inr hr =>
    rw [Bool.and_eq_true, Bool.and_eq_true] at hr
    obtain ⟨⟨hall, hhead⟩, hlast⟩ := hr
    unfold replaceImportLine
    rw [matchRepl_synth flds p hne hall hhead hlast hp]
    have hnc : flds.getLastD ' ' ≠ ',' := (plainChar_facts _ hlast).2.2.2.2.2.2
    have hsw : startsWithStr
        (flds.getLastD ' ' :: (rbrace :: " from ".toList ++ [squote])) [','] = false := by
      show ((',' == flds.getLastD ' ')
        && List.isPrefixOf [] (rbrace :: " from ".toList ++ [squote])) = false
      rw [show (',' == flds.getLastD ' ') = false from
        beq_eq_false_iff_ne.mpr (fun hh => hnc hh.symm)]
      rfl
    show ("import ".toList ++ [lbrace]) ++ nf
        ++ (if startsWithStr (flds.getLastD ' ' :: (rbrace :: " from ".toList ++ [squote]))
              [','] then flds.getLastD ' ' :: (rbrace :: " from ".toList ++ [squote])
            else (flds.getLastD ' ' :: (rbrace :: " from ".toList ++ [squote])).drop 1)
        ++ nfrom ++ [squote, ';'] = synthImportLine nf nfrom
    rw [hsw]
    show ("import ".toList ++ [lbrace]) ++ nf ++ (rbrace :: " from ".toList ++ [squote])
        ++ nfrom ++ [squote, ';'] = synthImportLine nf nfrom
    simp [synthImportLine, List.append_assoc]

/-! ### Clean generated lines: parsing and the rewrite branch -/

theorem parseClean_synth (nf nfrom : Str) (hrb : rbrace ∉ nf) :
    parseCleanImportLine (synthImportLine nf nfrom) = some (nf, nfrom) := by
  have hpre : startsWithStr (synthImportLine nf nfrom)
      ("import ".toList ++ [lbrace]) = true := by
    rw [synth_shape]
    rw [show "import ".toList ++ (lbrace :: (nf ++ (rbrace :: (" from ".toList
          ++ (squote :: (nfrom ++ [squote, ';']))))))
        = ("import ".toList ++ [lbrace]) ++ (nf ++ (rbrace :: (" from ".toList
          ++ (squote :: (nfrom ++ [squote, ';']))))) from by
      rw [List.append_assoc]
      rfl]
    exact startsWithStr_append _ _
  have hsw2 : startsWithStr (rbrace :: (" from ".toList
        ++ (squote :: (nfrom ++ [squote, ';']))))
      (rbrace :: " from ".toList ++ [squote]) = true := by
    rw [show rbrace :: (" from ".toList ++ (squote :: (nfrom ++ [squote, ';'])))
        = (rbrace :: " from ".toList ++ [squote]) ++ (nfrom ++ [squote, ';']) from by
      simp [List.append_assoc]]
    exact startsWithStr_append _ _
  unfold parseCleanImportLine
  rw [if_pos hpre]
  rw [synth_shape]
  dsimp only
  rw [show ("import ".toList ++ (lbrace :: (nf ++ (rbrace :: (" from ".toList
        ++ (squote :: (nfrom ++ [squote, ';']))))))).drop 8
      = nf ++ (rbrace :: (" from ".toList ++ (squote :: (nfrom ++ [squote, ';']))))
    from rfl]
  rw [charIndexOf?_append nf _ rbrace hrb]
  dsimp only
  rw [List.take_left, List.drop_left]
  rw [if_pos hsw2]
  rw [show (rbrace :: (" from ".toList ++ (squote :: (nfrom ++ [squote, ';'])))).drop 8
      = nfrom ++ [squote, ';'] from rfl]
  rw [if_pos (show endsWithStr (nfrom ++ [squote, ';']) [squote, ';'] = true from by
    rw [endsWithStr, List.isSuffixOf_iff_suffix]
    exact List.suffix_append nfrom [squote, ';'])]
  rw [show (nfrom ++ [squote, ';']).length - 2 = nfrom.length from by
    rw [List.length_append]
    rfl]
  rw [List.take_left]

theorem isClean_synth (nf nfrom : Str) (hok : fldsOk nf = true)
    (hp : nfrom.all plainChar = true) (hrb : rbrace ∉ nf) :
    isCleanImportLine (synthImportLine nf nfrom) = true := by
  unfold isCleanImportLine
  rw [parseClean_synth nf nfrom hrb]
  dsimp only
  rw [hok, hp]
  simp

theorem isClean_elim (s : Str) (h : isCleanImportLine s = true) :
    ∃ flds p, fldsOk flds = true ∧ p.all plainChar = true
      ∧ s = synthImportLine flds p := by
  unfold isCleanImportLine at h
  cases hp : parseCleanImportLine s with
  | none => rw [hp] at h; cases h
  | some fp =>
    obtain ⟨flds, p⟩ := fp
    rw [hp] at h
    rw [Bool.and_eq_true, Bool.and_eq_true] at h
    exact ⟨flds, p, h.1.1, h.1.2, of_decide_eq_true h.2⟩

/-- Under the cleanliness condition on the existing first import
statement, the new leading line of `modifyFile` is always exactly the
synthesized one: the rewrite branch, when taken, reconstructs it. -/
theorem modifyNewImportLine_clean (lines : List Str) (code nf nfrom : Str)
    (hcl : containsOurImportStatement lines (getFirstImportStatement code) = true →
      isCleanImportLine (getFirstImportStatement code) = true) :
    modifyNewImportLine lines code nf nfrom = synthImportLine nf nfrom := by
  unfold modifyNewImportLine
  dsimp only
  by_cases hcond : (decide (getFirstImportStatement code ≠ [])
      && containsOurImportStatement lines (getFirstImportStatement code)
      && (matchRepl (getFirstImportStatement code)).isSome) = true
  · rw [if_pos hcond]
    rw [Bool.and_eq_true, Bool.and_eq_true] at hcond
    obtain ⟨⟨_, hcont⟩, hsome⟩ := hcond
    obtain ⟨flds, p, hok, hpp, hs⟩ := isClean_elim _ (hcl hcont)
    rw [hs]
    cases hfe : flds with
    | nil =>
      exfalso
      rw [hs, hfe, matchRepl_synth_nil] at hsome
      cases hsome
    | cons hd tl =>
      rw [← hfe]
      exact replaceImportLine_synth flds p nf nfrom
        (by rw [hfe]; exact List.cons_ne_nil hd tl) hok hpp
  · rw [if_neg hcond]

/-! ### Evaluating `modifyFileContent` and its stability on written files -/

theorem getExportedFields_purged (P : Parser) (lines : List Str) (c : Str) :
    getExportedFields P lines c true = some (fieldsPure P c) := by
  show (match P c with
    | none => some []
    | some nodes => some (extractNames nodes))
    = some (fieldsPure P c)
  unfold fieldsPure
  cases P c <;> rfl

theorem getExportedFields_of_purge (P : Parser) (lines : List Str) (c pc : Str)
    (h : purgeImportedFieldsCode lines c = some pc) :
    getExportedFields P lines c false = some (fieldsPure P pc) := by
  unfold getExportedFields
  rw [show (if false then some c else purgeImportedFieldsCode lines c)
      = purgeImportedFieldsCode lines c from rfl, h]
  dsimp only
  unfold fieldsPure
  cases P pc <;> rfl

theorem getExportedFields_false_congr (P : Parser) (lines : List Str) (c c' : Str)
    (h : purgeImportedFieldsCode lines c = purgeImportedFieldsCode lines c') :
    getExportedFields P lines c false = getExportedFields P lines c' false := by
  unfold getExportedFields
  rw [show (if false then some c else purgeImportedFieldsCode lines c)
      = purgeImportedFieldsCode lines c from rfl,
    show (if false then some c' else purgeImportedFieldsCode lines c')
      = purgeImportedFieldsCode lines c' from rfl, h]

theorem importLineFromOf_of_depth (f nm : Str) (h : 2 ≤ (List.splitOn '/' f).length) :
    importLineFromOf f nm
      = some ('.' :: '/'
          :: (repeatStr ("../".toList) ((List.splitOn '/' f).length - 2) ++ nm)) := by
  unfold importLineFromOf repeatJS levelsDeep
  rw [if_neg (show ¬ (Int.ofNat (List.splitOn '/' f).length - 2 < 0) from by
    rw [Int.ofNat_eq_natCast]
    omega)]
  rw [show (Int.ofNat (List.splitOn '/' f).length - 2).toNat
      = (List.splitOn '/' f).length - 2 from by
    rw [Int.ofNat_eq_natCast]
    omega]
  rfl

theorem modifyFileContent_eval (P : Parser) (opts : PluginOptions) (g : List Str)
    (f c pc nm nfrom : Str)
    (hjs : isFileOfType f opts.fileExtensionsJs = true)
    (hout : purgeOutputName opts.outputName = some nm)
    (hpc : purgeImportedFieldsCode (optionLines opts) c = some pc)
    (hfrom : importLineFromOf f nm = some nfrom) :
    modifyFileContent P opts g f c
      = some (if getFirstCodeLine c ≠ getFirstCodeLine
            (modifyNewImportLine (optionLines opts) c
              (joinSep (", ".toList) (importLineFieldsList g (fieldsPure P pc))) nfrom
              ++ '\n' :: pc)
          then (modifyNewImportLine (optionLines opts) c
              (joinSep (", ".toList) (importLineFieldsList g (fieldsPure P pc))) nfrom
              ++ '\n' :: pc, 1)
          else (c, 0)) := by
  unfold modifyFileContent
  rw [if_pos hjs, hpc]
  dsimp only
  rw [hout]
  dsimp only
  rw [getExportedFields_purged]
  dsimp only
  rw [hfrom]

theorem importLineFieldsList_plain (g own : List Str)
    (hg : ∀ x ∈ g, plainStr x = true) :
    ∀ x ∈ importLineFieldsList g own, plainStr x = true := by
  intro x hx
  exact hg x (List.mem_of_mem_filter hx)

/-- Re-running `modifyFileContent` on the content it has just written
leaves it untouched. -/
theorem modifyFileContent_newCode_stable (P : Parser) (opts : PluginOptions)
    (g : List Str) (f pc nm : Str) (k : Nat)
    (hjs : isFileOfType f opts.fileExtensionsJs = true)
    (hout : purgeOutputName opts.outputName = some nm)
    (hnm : plainStr nm = true)
    (hg : ∀ x ∈ g, plainStr x = true)
    (hstep : purgeStep (optionLines opts) pc = none)
    (hfrom : importLineFromOf f nm
      = some ('.' :: '/' :: (repeatStr ("../".toList) k ++ nm))) :
    modifyFileContent P opts g f
        (synthImportLine
          (joinSep (", ".toList) (importLineFieldsList g (fieldsPure P pc)))
          ('.' :: '/' :: (repeatStr ("../".toList) k ++ nm))
          ++ '\n' :: pc)
      = some (synthImportLine
          (joinSep (", ".toList) (importLineFieldsList g (fieldsPure P pc)))
          ('.' :: '/' :: (repeatStr ("../".toList) k ++ nm))
          ++ '\n' :: pc, 0) := by
  have hplainflds := importLineFieldsList_plain g (fieldsPure P pc) hg
  have hokf : fldsOk (joinSep (", ".toList) (importLineFieldsList g (fieldsPure P pc)))
      = true := fldsOk_joinSep _ hplainflds
  obtain ⟨hfsemi, _, hfrb⟩ := fldsOk_not_mem _ hokf
  have hppath : ('.' :: '/' :: (repeatStr ("../".toList) k ++ nm)).all plainChar
      = true := path_plain nm k (plainStr_parts nm hnm).2
  obtain ⟨hpsemi, _, _⟩ := all_plainChar_not_mem _ hppath
  have hcont : containsOurImportStatement (optionLines opts)
      (synthImportLine (joinSep (", ".toList) (importLineFieldsList g (fieldsPure P pc)))
        ('.' :: '/' :: (repeatStr ("../".toList) k ++ nm))) = true :=
    containsOur_of_marker opts nm _ hout (synth_contains_marker _ nm k)
  have hpurge : purgeImportedFieldsCode (optionLines opts)
      (synthImportLine (joinSep (", ".toList) (importLineFieldsList g (fieldsPure P pc)))
        ('.' :: '/' :: (repeatStr ("../".toList) k ++ nm)) ++ '\n' :: pc) = some pc :=
    purge_synth _ _ _ _ hfsemi hpsemi hcont hstep
  have hfirst : getFirstImportStatement
      (synthImportLine (joinSep (", ".toList) (importLineFieldsList g (fieldsPure P pc)))
        ('.' :: '/' :: (repeatStr ("../".toList) k ++ nm)) ++ '\n' :: pc)
      = synthImportLine (joinSep (", ".toList) (importLineFieldsList g (fieldsPure P pc)))
        ('.' :: '/' :: (repeatStr ("../".toList) k ++ nm)) :=
    getFirstImportStatement_synth _ _ _ hfsemi hpsemi
  rw [modifyFileContent_eval P opts g f _ pc nm _ hjs hout hpurge hfrom]
  rw [modifyNewImportLine_clean (optionLines opts) _ _ _ (fun _ => by
    rw [hfirst]
    exact isClean_synth _ _ hokf hppath hfrb)]
  rw [if_neg (fun hne => hne rfl)]

/-! ### The modify step and its invariant -/

theorem modifyStable_congr (P : Parser) (opts : PluginOptions) (g : List Str)
    (fs0 acc acc' : FS) (f : Str)
    (h : readFile? acc' f = readFile? acc f)
    (hs : modifyStable P opts g fs0 acc f) : modifyStable P opts g fs0 acc' f := by
  obtain ⟨c0, c1, h0, h1, hp, hm, hc⟩ := hs
  exact ⟨c0, c1, h0, by rw [h]; exact h1, hp, hm, hc⟩

theorem contentLink_congr (P : Parser) (opts : PluginOptions) (g : List Str)
    (fs0 acc acc' : FS) (f : Str)
    (h : readFile? acc' f = readFile? acc f)
    (hs : contentLink P opts g fs0 acc f) : contentLink P opts g fs0 acc' f := by
  cases hs with
  | inl he => exact Or.inl (by rw [h]; exact he)
  | inr hr => exact Or.inr (modifyStable_congr P opts g fs0 acc acc' f h hr)

/-- Processing one collected file: the result exists, only that file's
content changes, the key set is unchanged, and the file ends stable. -/
theorem modifyFile_step (P : Parser) (opts : PluginOptions) (g : List Str) (nm : Str)
    (fs0 acc : FS) (f : Str)
    (hout : purgeOutputName opts.outputName = some nm)
    (hnm : plainStr nm = true)
    (hg : ∀ x ∈ g, plainStr x = true)
    (hex : readFile? fs0 f ≠ none)
    (hok : isFileOfType f opts.fileExtensionsJs = true →
      2 ≤ (List.splitOn '/' f).length ∧
      goodContent (optionLines opts) ((readFile? fs0 f).getD []))
    (hlink : contentLink P opts g fs0 acc f) :
    ∃ acc' w, modifyFile P opts g acc f = some (acc', w) ∧
      acc'.map Prod.fst = acc.map Prod.fst ∧
      (∀ f', f' ≠ f → readFile? acc' f' = readFile? acc f') ∧
      modifyStable P opts g fs0 acc' f := by
  obtain ⟨c0, hc0⟩ : ∃ c0, readFile? fs0 f = some c0 := by
    cases hr : readFile? fs0 f with
    | none => exact absurd hr hex
    | some c => exact ⟨c, rfl⟩
  obtain ⟨c1, hc1, hlinkc⟩ : ∃ c1, readFile? acc f = some c1 ∧
      (c1 = c0 ∨ (purgeImportedFieldsCode (optionLines opts) c1
          = purgeImportedFieldsCode (optionLines opts) c0 ∧
        modifyFileContent P opts g f c1 = some (c1, 0) ∧
        (isFileOfType f opts.fileExtensionsJs = true →
          containsOurImportStatement (optionLines opts)
            (getFirstImportStatement c1) = true →
          isCleanImportLine (getFirstImportStatement c1) = true))) := by
    cases hlink with
    | inl hsame => exact ⟨c0, by rw [hsame]; exact hc0, Or.inl rfl⟩
    | inr hst =>
      obtain ⟨c0', c1, h0', h1, hp, hm, hcl⟩ := hst
      rw [hc0] at h0'
      obtain rfl : c0 = c0' := Option.some.inj h0'
      exact ⟨c1, h1, Or.inr ⟨hp, hm, hcl⟩⟩
  by_cases hjs : isFileOfType f opts.fileExtensionsJs = true
  · obtain ⟨hdepth, hgood⟩ := hok hjs
    obtain ⟨hterm, hcl0⟩ := hgood
    rw [hc0, Option.getD_some] at hterm hcl0
    obtain ⟨pc, hpc0⟩ : ∃ pc,
        purgeImportedFieldsCode (optionLines opts) c0 = some pc := by
      cases hq : purgeImportedFieldsCode (optionLines opts) c0 with
      | none => rw [hq] at hterm; cases hterm
      | some pc => exact ⟨pc, rfl⟩
    have hpc1 : purgeImportedFieldsCode (optionLines opts) c1 = some pc := by
      cases hlinkc with
      | inl he => rw [he]; exact hpc0
      | inr hr => rw [hr.1]; exact hpc0
    have hcl1 : containsOurImportStatement (optionLines opts)
        (getFirstImportStatement c1) = true →
        isCleanImportLine (getFirstImportStatement c1) = true := by
      cases hlinkc with
      | inl he => rw [he]; exact hcl0
      | inr hr => exact hr.2.2 hjs
    have hfrom := importLineFromOf_of_depth f nm hdepth
    have heval := modifyFileContent_eval P opts g f c1 pc nm _ hjs hout hpc1 hfrom
    rw [modifyNewImportLine_clean (optionLines opts) c1 _ _ hcl1] at heval
    by_cases hdiff : getFirstCodeLine c1 ≠ getFirstCodeLine
        (synthImportLine
          (joinSep (", ".toList) (importLineFieldsList g (fieldsPure P pc)))
          ('.' :: '/' :: (repeatStr ("../".toList)
            ((List.splitOn '/' f).length - 2) ++ nm))
          ++ '\n' :: pc)
    · rw [if_pos hdiff] at heval
      have hmf : modifyFile P opts g acc f
          = some (writeFS acc f
              (synthImportLine
                (joinSep (", ".toList) (importLineFieldsList g (fieldsPure P pc)))
                ('.' :: '/' :: (repeatStr ("../".toList)
                  ((List.splitOn '/' f).length - 2) ++ nm))
                ++ '\n' :: pc), 1) := by
        rw [modifyFile_eq_content, hc1]
        rw [show (some c1).getD ([] : Str) = c1 from rfl]
        rw [heval]
        rfl
      have hne1 : readFile? acc f ≠ none := by rw [hc1]; intro hc; cases hc
      refine ⟨_, 1, hmf, writeFS_keys acc f _ hne1, ?_, ?_⟩
      · intro f' hf'
        rw [readFile?_writeFS]
        rw [if_neg hf']
      · have hstep : purgeStep (optionLines opts) pc = none :=
          (purge_fixpoint (optionLines opts) c0 pc hpc0).1
        have hstable := modifyFileContent_newCode_stable P opts g f pc nm
          ((List.splitOn '/' f).length - 2) hjs hout hnm hg hstep hfrom
        have hplainflds := importLineFieldsList_plain g (fieldsPure P pc) hg
        have hokf : fldsOk (joinSep (", ".toList)
            (importLineFieldsList g (fieldsPure P pc))) = true :=
          fldsOk_joinSep _ hplainflds
        obtain ⟨hfsemi, _, hfrb⟩ := fldsOk_not_mem _ hokf
        have hppath : ('.' :: '/' :: (repeatStr ("../".toList)
            ((List.splitOn '/' f).length - 2) ++ nm)).all plainChar = true :=
          path_plain nm _ (plainStr_parts nm hnm).2
        obtain ⟨hpsemi, _, _⟩ := all_plainChar_not_mem _ hppath
        have hcont : containsOurImportStatement (optionLines opts)
            (synthImportLine
              (joinSep (", ".toList) (importLineFieldsList g (fieldsPure P pc)))
              ('.' :: '/' :: (repeatStr ("../".toList)
                ((List.splitOn '/' f).length - 2) ++ nm))) = true :=
          containsOur_of_marker opts nm _ hout (synth_contains_marker _ nm _)
        have hpurge2 : purgeImportedFieldsCode (optionLines opts)
            (synthImportLine
              (joinSep (", ".toList) (importLineFieldsList g (fieldsPure P pc)))
              ('.' :: '/' :: (repeatStr ("../".toList)
                ((List.splitOn '/' f).length - 2) ++ nm))
              ++ '\n' :: pc) = some pc :=
          purge_synth _ _ _ _ hfsemi hpsemi hcont hstep
        have hfirst := getFirstImportStatement_synth
          (joinSep (", ".toList) (importLineFieldsList g (fieldsPure P pc)))
          ('.' :: '/' :: (repeatStr ("../".toList)
            ((List.splitOn '/' f).length - 2) ++ nm)) pc hfsemi hpsemi
        refine ⟨c0, _, hc0, by rw [readFile?_writeFS]; rw [if_pos rfl], ?_, hstable, ?_⟩
        · rw [hpurge2, hpc0]
        · intro _ _
          rw [hfirst]
          exact isClean_synth _ _ hokf hppath hfrb
    · rw [if_neg hdiff] at heval
      have hmf : modifyFile P opts g acc f = some (acc, 0) := by
        rw [modifyFile_eq_content, hc1]
        rw [show (some c1).getD ([] : Str) = c1 from rfl]
        rw [heval]
        rfl
      refine ⟨acc, 0, hmf, rfl, fun f' _ => rfl, ?_⟩
      refine ⟨c0, c1, hc0, hc1, ?_, heval, fun _ => hcl1⟩
      rw [hpc1, hpc0]
  · have heval : modifyFileContent P opts g f c1 = some (c1, 0) := by
      unfold modifyFileContent
      rw [if_neg hjs]
    have hmf : modifyFile P opts g acc f = some (acc, 0) := by
      rw [modifyFile_eq_content, hc1]
      rw [show (some c1).getD ([] : Str) = c1 from rfl]
      rw [heval]
      rfl
    refine ⟨acc, 0, hmf, rfl, fun f' _ => rfl, ?_⟩
    refine ⟨c0, c1, hc0, hc1, ?_, heval, fun hj => absurd hj hjs⟩
    cases hlinkc with
    | inl he => rw [he]
    | inr hr => exact hr.1

theorem modifyFilesFold (P : Parser) (opts : PluginOptions) (g : List Str) (nm : Str)
    (fs0 base : FS) (files : List Str) (D : Str → Prop) (acc : FS) (n : Nat)
    (hout : purgeOutputName opts.outputName = some nm)
    (hnm : plainStr nm = true)
    (hg : ∀ x ∈ g, plainStr x = true)
    (hfiles : ∀ f ∈ files, modifyFileOK opts nm fs0 f)
    (hinv : modifyInv P opts g nm fs0 base D acc) :
    ∃ acc' n', files.foldlM (processModifyFile P opts g) (acc, n) = some (acc', n') ∧
      modifyInv P opts g nm fs0 base (fun f => D f ∨ f ∈ files) acc' := by
  induction files generalizing D acc n with
  | nil =>
    refine ⟨acc, n, rfl, ?_⟩
    obtain ⟨hk, ha, hl, hd⟩ := hinv
    exact ⟨hk, ha, hl,
      fun f hf => hf.elim (hd f) (fun hm => absurd hm (List.not_mem_nil f))⟩
  | cons x t ih =>
    obtain ⟨hxne, hxex, hxok⟩ := hfiles x (List.mem_cons_self x t)
    obtain ⟨hk, ha, hl, hd⟩ := hinv
    obtain ⟨acc1, w, hmf, hk1, hro, hst⟩ := modifyFile_step P opts g nm fs0 acc x
      hout hnm hg hxex hxok (hl x hxne)
    have hinv1 : modifyInv P opts g nm fs0 base (fun f => D f ∨ f = x) acc1 := by
      refine ⟨by rw [hk1, hk], ?_, ?_, ?_⟩
      · rw [hro _ (fun he => hxne he.symm)]
        exact ha
      · intro f hf
        by_cases hfx : f = x
        · subst hfx
          exact Or.inr hst
        · exact contentLink_congr P opts g fs0 acc acc1 f (hro f hfx) (hl f hf)
      · intro f hf
        rcases hf with hdf | hfx
        · by_cases hfx : f = x
          · subst hfx
            exact hst
          · exact modifyStable_congr P opts g fs0 acc acc1 f (hro f hfx) (hd f hdf)
        · subst hfx
          exact hst
    obtain ⟨acc', n', hfold, hinv'⟩ := ih (fun f => D f ∨ f = x) acc1 (n + w)
      (fun f hf => hfiles f (List.mem_cons_of_mem x hf)) hinv1
    refine ⟨acc', n', ?_, ?_⟩
    · rw [List.foldlM_cons]
      rw [show processModifyFile P opts g (acc, n) x = some (acc1, n + w) from by
        unfold processModifyFile
        rw [hmf]]
      exact hfold
    · obtain ⟨hk', ha', hl', hd'⟩ := hinv'
      refine ⟨hk', ha', hl', ?_⟩
      intro f hf
      apply hd' f
      rcases hf with hdf | hfm
      · exact Or.inl (Or.inl hdf)
      · rcases List.mem_cons.mp hfm with he | hm
        · exact Or.inl (Or.inr he)
        · exact Or.inr hm

theorem getAllFiles_mem_ne (fs : FS) (r f a : Str) (h : f ∈ getAllFiles fs r)
    (hne : r ≠ a) (hnu : startsWithStr a (r ++ ['/']) = false) : f ≠ a := by
  unfold getAllFiles at h
  cases hr : readFile? fs r with
  | some v =>
    rw [hr] at h
    rcases List.mem_singleton.mp h with rfl
    exact hne
  | none =>
    rw [hr] at h
    have hsw := List.of_mem_filter h
    intro he
    rw [he] at hsw
    rw [hsw] at hnu
    cases hnu

theorem getAllFiles_base (fs0 base : FS) (nm r : Str)
    (hb : base.map Prod.fst = fs0.map Prod.fst
      ∨ ∃ c, readFile? fs0 ('.' :: '/' :: nm) = none
          ∧ base = fs0 ++ [('.' :: '/' :: nm, c)])
    (hr1 : purgePath r ≠ '.' :: '/' :: nm)
    (hr2 : startsWithStr ('.' :: '/' :: nm) (purgePath r ++ ['/']) = false) :
    getAllFiles base (purgePath r) = getAllFiles fs0 (purgePath r) := by
  rcases hb with hk | ⟨c, _, happ⟩
  · exact getAllFiles_congr base fs0 _ hk
  · rw [happ]
    exact getAllFiles_append_one fs0 _ c _ hr1 hr2

theorem modifyRootsFold (P : Parser) (opts : PluginOptions) (g : List Str) (nm : Str)
    (fs0 base : FS) (roots : List Str) (D : Str → Prop) (acc : FS) (n : Nat)
    (hout : purgeOutputName opts.outputName = some nm)
    (hnm : plainStr nm = true)
    (hg : ∀ x ∈ g, plainStr x = true)
    (hb : base.map Prod.fst = fs0.map Prod.fst
      ∨ ∃ c, readFile? fs0 ('.' :: '/' :: nm) = none
          ∧ base = fs0 ++ [('.' :: '/' :: nm, c)])
    (hroots : ∀ r ∈ roots, rootAvoidsAgg nm r)
    (hfilesok : ∀ r ∈ roots, ∀ f ∈ getAllFiles fs0 (purgePath r),
      readFile? fs0 f ≠ none ∧
      (isFileOfType f opts.fileExtensionsJs = true →
        2 ≤ (List.splitOn '/' f).length ∧
        goodContent (optionLines opts) ((readFile? fs0 f).getD [])))
    (hinv : modifyInv P opts g nm fs0 base D acc) :
    ∃ acc' n', roots.foldlM (processModifyRoot P opts g) (acc, n) = some (acc', n') ∧
      modifyInv P opts g nm fs0 base
        (fun f => D f ∨ ∃ r, r ∈ roots ∧ f ∈ getAllFiles fs0 (purgePath r)) acc' := by
  induction roots generalizing D acc n with
  | nil =>
    refine ⟨acc, n, rfl, ?_⟩
    obtain ⟨hk, ha, hl, hd⟩ := hinv
    refine ⟨hk, ha, hl, ?_⟩
    intro f hf
    apply hd f
    rcases hf with hdf | ⟨r, hr, _⟩
    · exact hdf
    · exact absurd hr (List.not_mem_nil r)
  | cons r rs ih =>
    obtain ⟨hr1, hr2⟩ := hroots r (List.mem_cons_self r rs)
    have hcoll : getAllFiles acc (purgePath r) = getAllFiles fs0 (purgePath r) := by
      rw [getAllFiles_congr acc base _ hinv.1]
      exact getAllFiles_base fs0 base nm r hb hr1 hr2
    have hfilesok1 : ∀ f ∈ sortCmp compareFileOrder (getAllFiles fs0 (purgePath r)),
        modifyFileOK opts nm fs0 f := by
      intro f hf
      have hmem : f ∈ getAllFiles fs0 (purgePath r) := (mem_sortCmp _ _ _).mp hf
      obtain ⟨hex, hok⟩ := hfilesok r (List.mem_cons_self r rs) f hmem
      exact ⟨getAllFiles_mem_ne fs0 _ f _ hmem hr1 hr2, hex, hok⟩
    obtain ⟨acc1, n1, hfold1, hinv1⟩ := modifyFilesFold P opts g nm fs0 base
      (sortCmp compareFileOrder (getAllFiles fs0 (purgePath r))) D acc n
      hout hnm hg hfilesok1 hinv
    obtain ⟨acc', n', hfold', hinv'⟩ := ih
      (fun f => D f ∨ f ∈ sortCmp compareFileOrder (getAllFiles fs0 (purgePath r)))
      acc1 n1
      (fun rr hrr => hroots rr (List.mem_cons_of_mem r hrr))
      (fun rr hrr => hfilesok rr (List.mem_cons_of_mem r hrr)) hinv1
    refine ⟨acc', n', ?_, ?_⟩
    · rw [List.foldlM_cons]
      rw [show processModifyRoot P opts g (acc, n) r = some (acc1, n1) from by
        unfold processModifyRoot
        dsimp only
        rw [hcoll]
        exact hfold1]
      exact hfold'
    · obtain ⟨hk', ha', hl', hd'⟩ := hinv'
      refine ⟨hk', ha', hl', ?_⟩
      intro f hf
      apply hd' f
      rcases hf with hdf | ⟨rr, hrr, hfm⟩
      · exact Or.inl (Or.inl hdf)
      · rcases List.mem_cons.mp hrr with he | hm
        · subst he
          exact Or.inl (Or.inr ((mem_sortCmp _ _ _).mpr hfm))
        · exact Or.inr ⟨rr, hm, hfm⟩

/-! ### The import phase: existence, plain exports, and congruence -/

theorem fieldsPure_plain (P : Parser) (c : Str)
    (hP : ∀ cc nodes, P cc = some nodes → ∀ x ∈ extractNames nodes, plainStr x = true) :
    ∀ x ∈ fieldsPure P c, plainStr x = true := by
  unfold fieldsPure
  cases hp : P c with
  | none => exact fun x hx => absurd hx (List.not_mem_nil x)
  | some ns => exact hP c ns hp

theorem insertField_plain (l : List Str) (y : Str)
    (hl : ∀ x ∈ l, plainStr x = true) (hy : plainStr y = true) :
    ∀ x ∈ insertField l y, plainStr x = true := by
  intro x hx
  unfold insertField at hx
  by_cases hc : l.contains y
  · rw [if_pos hc] at hx
    exact hl x hx
  · rw [if_neg hc] at hx
    rcases List.mem_append.mp hx with hm | hm
    · exact hl x hm
    · rw [List.mem_singleton.mp hm]
      exact hy

theorem insertFields_plain (xs l : List Str)
    (hl : ∀ x ∈ l, plainStr x = true) (hxs : ∀ x ∈ xs, plainStr x = true) :
    ∀ x ∈ insertFields l xs, plainStr x = true := by
  induction xs generalizing l with
  | nil => exact hl
  | cons y t ih =>
    exact ih (insertField l y)
      (insertField_plain l y hl (hxs y (List.mem_cons_self y t)))
      (fun x hx => hxs x (List.mem_cons_of_mem y hx))

theorem importFile_some (P : Parser) (opts : PluginOptions) (fs0 : FS) (st : AggState)
    (f : Str)
    (hP : ∀ c nodes, P c = some nodes → ∀ x ∈ extractNames nodes, plainStr x = true)
    (hC : ∀ handler, opts.fileExtensionsCustom = some handler →
      ∀ fl r, handler fl = some r → ∀ ex, r.exports = some ex →
        ∀ x ∈ ex, plainStr x = true)
    (hok : importOK opts fs0 f)
    (hst : ∀ x ∈ st.exportedFields, plainStr x = true) :
    ∃ st', importFile P opts fs0 st f = some st' ∧
      ∀ x ∈ st'.exportedFields, plainStr x = true := by
  unfold importFile
  dsimp only
  by_cases h1 : ((purgeOutputName opts.outputName).isSome
      && isFileOfType f opts.fileExtensionsJs) = true
  · rw [if_pos h1]
    by_cases h2 : filterAccepts opts f = true
    · rw [if_pos h2]
      rw [Bool.and_eq_true] at h1
      obtain ⟨pc, hpc⟩ : ∃ pc, purgeImportedFieldsCode (optionLines opts)
          ((readFile? fs0 f).getD []) = some pc := by
        have := hok h1.2 h2
        cases hq : purgeImportedFieldsCode (optionLines opts)
            ((readFile? fs0 f).getD []) with
        | none => rw [hq] at this; cases this
        | some pc => exact ⟨pc, rfl⟩
      rw [getExportedFields_of_purge P _ _ pc hpc]
      refine ⟨_, rfl, ?_⟩
      exact insertFields_plain _ _ hst (fieldsPure_plain P pc hP)
    · rw [if_neg h2]
      exact ⟨st, rfl, hst⟩
  · rw [if_neg h1]
    by_cases h3 : ((purgeOutputName opts.outputName).isSome
        && isFileOfType f opts.fileExtensionsOther) = true
    · rw [if_pos h3]
      by_cases h2 : filterAccepts opts f = true
      · rw [if_pos h2]
        exact ⟨_, rfl, hst⟩
      · rw [if_neg h2]
        exact ⟨st, rfl, hst⟩
    · rw [if_neg h3]
      cases hh : opts.fileExtensionsCustom with
      | none => exact ⟨st, rfl, hst⟩
      | some handler =>
        dsimp only
        by_cases h2 : filterAccepts opts f = true
        · rw [if_pos h2]
          cases hr : handler f with
          | none => exact ⟨st, rfl, hst⟩
          | some result =>
            dsimp only
            have hst1 : ∀ x ∈ (match result.code with
                | some c => if c ≠ [] then
                    AggState.mk (st.importsCode ++ c ++ [squote, '\n']) st.exportedFields
                  else st
                | none => st).exportedFields, plainStr x = true := by
              cases result.code with
              | none => exact hst
              | some c =>
                dsimp only
                by_cases hcne : c ≠ []
                · rw [if_pos hcne]
                  exact hst
                · rw [if_neg hcne]
                  exact hst
            cases he : result.exports with
            | none => exact ⟨_, rfl, hst1⟩
            | some ex =>
              refine ⟨_, rfl, ?_⟩
              exact insertFields_plain _ _ hst1 (hC handler hh f result hr ex he)
        · rw [if_neg h2]
          exact ⟨st, rfl, hst⟩

theorem importFilesFold_some (P : Parser) (opts : PluginOptions) (fs0 : FS)
    (files : List Str) (st : AggState)
    (hP : ∀ c nodes, P c = some nodes → ∀ x ∈ extractNames nodes, plainStr x = true)
    (hC : ∀ handler, opts.fileExtensionsCustom = some handler →
      ∀ fl r, handler fl = some r → ∀ ex, r.exports = some ex →
        ∀ x ∈ ex, plainStr x = true)
    (hfiles : ∀ f ∈ files, importOK opts fs0 f)
    (hst : ∀ x ∈ st.exportedFields, plainStr x = true) :
    ∃ st', files.foldlM (importFile P opts fs0) st = some st' ∧
      ∀ x ∈ st'.exportedFields, plainStr x = true := by
  induction files generalizing st with
  | nil => exact ⟨st, rfl, hst⟩
  | cons x t ih =>
    obtain ⟨st1, h1, hp1⟩ := importFile_some P opts fs0 st x hP hC
      (hfiles x (List.mem_cons_self x t)) hst
    obtain ⟨st', h', hp'⟩ := ih st1 (fun f hf => hfiles f (List.mem_cons_of_mem x hf)) hp1
    refine ⟨st', ?_, hp'⟩
    rw [List.foldlM_cons, h1]
    exact h'

theorem runImportPhase_sound (P : Parser) (opts : PluginOptions) (fs0 : FS)
    (hP : ∀ c nodes, P c = some nodes → ∀ x ∈ extractNames nodes, plainStr x = true)
    (hC : ∀ handler, opts.fileExtensionsCustom = some handler →
      ∀ fl r, handler fl = some r → ∀ ex, r.exports = some ex →
        ∀ x ∈ ex, plainStr x = true)
    (hroots : ∀ r ∈ opts.importPaths, ∀ f ∈ getAllFiles fs0 (purgePath r),
      importOK opts fs0 f) :
    ∃ st, runImportPhase P opts fs0 = some st ∧
      ∀ x ∈ st.exportedFields, plainStr x = true := by
  unfold runImportPhase
  have hgen : ∀ (roots : List Str),
      (∀ r ∈ roots, ∀ f ∈ getAllFiles fs0 (purgePath r), importOK opts fs0 f) →
      ∀ (st : AggState), (∀ x ∈ st.exportedFields, plainStr x = true) →
      ∃ st', roots.foldlM (processImportRoot P opts fs0) st = some st' ∧
        ∀ x ∈ st'.exportedFields, plainStr x = true := by
    intro roots
    induction roots with
    | nil => exact fun _ st hst => ⟨st, rfl, hst⟩
    | cons r rs ih =>
      intro hr st hst
      obtain ⟨st1, h1, hp1⟩ := importFilesFold_some P opts fs0
        (sortCmp compareFileOrder (getAllFiles fs0 (purgePath r))) st hP hC
        (fun f hf => hr r (List.mem_cons_self r rs) f ((mem_sortCmp _ _ _).mp hf)) hst
      obtain ⟨st', h', hp'⟩ := ih (fun rr hrr => hr rr (List.mem_cons_of_mem r hrr)) st1 hp1
      refine ⟨st', ?_, hp'⟩
      rw [List.foldlM_cons]
      rw [show processImportRoot P opts fs0 st r = some st1 from h1]
      exact h'
  exact hgen opts.importPaths hroots (AggState.mk [] [])
    (fun x hx => absurd hx (List.not_mem_nil x))

theorem importFile_congr (P : Parser) (opts : PluginOptions) (fsA fsB : FS) (f : Str)
    (h : getExportedFields P (optionLines opts) ((readFile? fsA f).getD []) false
       = getExportedFields P (optionLines opts) ((readFile? fsB f).getD []) false) :
    ∀ st, importFile P opts fsA st f = importFile P opts fsB st f := by
  intro st
  unfold importFile
  rw [h]

theorem importFilesFold_congr (P : Parser) (opts : PluginOptions) (fsA fsB : FS)
    (files : List Str)
    (h : ∀ f ∈ files, ∀ st, importFile P opts fsA st f = importFile P opts fsB st f) :
    ∀ st, files.foldlM (importFile P opts fsA) st
      = files.foldlM (importFile P opts fsB) st := by
  induction files with
  | nil => exact fun _ => rfl
  | cons x t ih =>
    intro st
    rw [List.foldlM_cons, List.foldlM_cons, h x (List.mem_cons_self x t) st]
    cases hx : importFile P opts fsB st x with
    | none => rfl
    | some st1 =>
      show t.foldlM (importFile P opts fsA) st1 = t.foldlM (importFile P opts fsB) st1
      exact ih (fun f hf => h f (List.mem_cons_of_mem x hf)) st1

theorem runImportPhase_congr (P : Parser) (opts : PluginOptions) (fsA fsB : FS)
    (hcoll : ∀ r ∈ opts.importPaths,
      getAllFiles fsA (purgePath r) = getAllFiles fsB (purgePath r))
    (hfile : ∀ r ∈ opts.importPaths,
      ∀ f ∈ sortCmp compareFileOrder (getAllFiles fsB (purgePath r)),
      getExportedFields P (optionLines opts) ((readFile? fsA f).getD []) false
        = getExportedFields P (optionLines opts) ((readFile? fsB f).getD []) false) :
    runImportPhase P opts fsA = runImportPhase P opts fsB := by
  unfold runImportPhase
  have hgen : ∀ (roots : List Str),
      (∀ r ∈ roots, getAllFiles fsA (purgePath r) = getAllFiles fsB (purgePath r)) →
      (∀ r ∈ roots, ∀ f ∈ sortCmp compareFileOrder (getAllFiles fsB (purgePath r)),
        getExportedFields P (optionLines opts) ((readFile? fsA f).getD []) false
          = getExportedFields P (optionLines opts) ((readFile? fsB f).getD []) false) →
      ∀ st, roots.foldlM (processImportRoot P opts fsA) st
        = roots.foldlM (processImportRoot P opts fsB) st := by
    intro roots
    induction roots with
    | nil => exact fun _ _ _ => rfl
    | cons r rs ih =>
      intro hc hf st
      rw [List.foldlM_cons, List.foldlM_cons]
      rw [show processImportRoot P opts fsA st r = processImportRoot P opts fsB st r from by
        unfold processImportRoot
        rw [hc r (List.mem_cons_self r rs)]
        exact importFilesFold_congr P opts fsA fsB _
          (fun f hfm => importFile_congr P opts fsA fsB f
            (hf r (List.mem_cons_self r rs) f hfm)) st]
      cases hx : processImportRoot P opts fsB st r with
      | none => rfl
      | some st1 =>
        show rs.foldlM (processImportRoot P opts fsA) st1
          = rs.foldlM (processImportRoot P opts fsB) st1
        exact ih (fun rr hrr => hc rr (List.mem_cons_of_mem r hrr))
          (fun rr hrr => hf rr (List.mem_cons_of_mem r hrr)) st1
  exact hgen opts.importPaths hcoll hfile (AggState.mk [] [])

/-! ### The aggregator write and the write-free second run -/

theorem setFCD_post (fs : FS) (f new : Str) :
    trimStr ((readFile? (setFileContentIfDifferent fs f new none).fst f).getD [])
      = trimStr new := by
  unfold setFileContentIfDifferent
  dsimp only
  by_cases h : trimStr ((readFile? fs f).getD []) ≠ trimStr new
  · rw [if_pos h]
    dsimp only
    rw [readFile?_writeFS]
    rw [if_pos rfl]
    rfl
  · rw [if_neg h]
    dsimp only
    exact not_ne_iff.mp h

theorem setFCD_nowrite (fs : FS) (f new : Str)
    (h : trimStr ((readFile? fs f).getD []) = trimStr new) :
    setFileContentIfDifferent fs f new none = (fs, 0) := by
  unfold setFileContentIfDifferent
  dsimp only
  rw [if_neg (not_ne_iff.mpr h)]

theorem setFCD_read_other (fs : FS) (f new f' : Str) (h : f' ≠ f) :
    readFile? (setFileContentIfDifferent fs f new none).fst f' = readFile? fs f' := by
  unfold setFileContentIfDifferent
  dsimp only
  by_cases hd : trimStr ((readFile? fs f).getD []) ≠ trimStr new
  · rw [if_pos hd]
    dsimp only
    rw [readFile?_writeFS, if_neg h]
  · rw [if_neg hd]

theorem setFCD_base_cases (fs : FS) (f new : Str) :
    (setFileContentIfDifferent fs f new none).fst.map Prod.fst = fs.map Prod.fst
    ∨ ∃ c, readFile? fs f = none
        ∧ (setFileContentIfDifferent fs f new none).fst = fs ++ [(f, c)] := by
  unfold setFileContentIfDifferent
  dsimp only
  by_cases hd : trimStr ((readFile? fs f).getD []) ≠ trimStr new
  · rw [if_pos hd]
    dsimp only
    cases hr : readFile? fs f with
    | some v =>
      exact Or.inl (writeFS_keys fs f new (by rw [hr]; intro hc; cases hc))
    | none => exact Or.inr ⟨new, rfl, writeFS_absent fs f new hr⟩
  · rw [if_neg hd]
    exact Or.inl rfl

theorem modifyFilesFold_nowrite (P : Parser) (opts : PluginOptions) (g : List Str)
    (files : List Str) (fs : FS) (n : Nat)
    (h : ∀ f ∈ files, modifyFile P opts g fs f = some (fs, 0)) :
    files.foldlM (processModifyFile P opts g) (fs, n) = some (fs, n) := by
  induction files generalizing n with
  | nil => rfl
  | cons x t ih =>
    rw [List.foldlM_cons]
    rw [show processModifyFile P opts g (fs, n) x = some (fs, n + 0) from by
      unfold processModifyFile
      rw [h x (List.mem_cons_self x t)]]
    exact ih (n + 0) (fun f hf => h f (List.mem_cons_of_mem x hf))

theorem modifyRootsFold_nowrite (P : Parser) (opts : PluginOptions) (g : List Str)
    (roots : List Str) (fs : FS) (n : Nat)
    (h : ∀ r ∈ roots, ∀ f ∈ sortCmp compareFileOrder (getAllFiles fs (purgePath r)),
      modifyFile P opts g fs f = some (fs, 0)) :
    roots.foldlM (processModifyRoot P opts g) (fs, n) = some (fs, n) := by
  induction roots generalizing n with
  | nil => rfl
  | cons r rs ih =>
    rw [List.foldlM_cons]
    rw [show processModifyRoot P opts g (fs, n) r = some (fs, n) from by
      unfold processModifyRoot
      dsimp only
      exact modifyFilesFold_nowrite P opts g _ fs n (h r (List.mem_cons_self r rs))]
    exact ih n (fun rr hrr => h rr (List.mem_cons_of_mem r hrr))

/-! ## Claim C1, amended part -/

/-- C1 (amended): the second run of `onPreInit` performs zero filesystem
writes, provided that (1) an output name is configured and it consists of
plain characters, (2) every identifier produced by the parser or the
custom handler is plain, (3) no configured import or modify root collects
the aggregator file `./name` itself, (4) purge terminates on every
collected import source the aggregation phase reads, and (5) every
collected modify target that is js-like has a path of at least two
segments, a content on which purge terminates, and a recognized first
statement (if any) in the tool's own clean output format.  Without
condition (3) the claim is false (`claim1_counterexample`). -/
theorem claim1_theorem (P : Parser) (opts : PluginOptions) (fs0 : FS) (nm : Str)
    (hout : purgeOutputName opts.outputName = some nm)
    (hnm : plainStr nm = true)
    (hP : ∀ c nodes, P c = some nodes → ∀ x ∈ extractNames nodes, plainStr x = true)
    (hC : ∀ handler, opts.fileExtensionsCustom = some handler →
      ∀ fl r, handler fl = some r → ∀ ex, r.exports = some ex →
        ∀ x ∈ ex, plainStr x = true)
    (hagg : ∀ r ∈ opts.importPaths ++ opts.modifyPaths, rootAvoidsAgg nm r)
    (himp : ∀ r ∈ opts.importPaths, ∀ f ∈ getAllFiles fs0 (purgePath r),
      importOK opts fs0 f)
    (hmod : ∀ r ∈ opts.modifyPaths, ∀ f ∈ getAllFiles fs0 (purgePath r),
      isFileOfType f opts.fileExtensionsJs = true →
        2 ≤ (List.splitOn '/' f).length ∧
        goodContent (optionLines opts) ((readFile? fs0 f).getD [])) :
    ∃ fs1 n1, onPreInit P opts fs0 = some (fs1, n1)
      ∧ onPreInit P opts fs1 = some (fs1, 0) := by
  obtain ⟨st1, hst1, hplain⟩ := runImportPhase_sound P opts fs0 hP hC himp
  rcases hsd : setFileContentIfDifferent fs0 ('.' :: '/' :: nm)
      (aggregatorContent st1) none with ⟨base, wa⟩
  have hbase_cases := setFCD_base_cases fs0 ('.' :: '/' :: nm) (aggregatorContent st1)
  rw [hsd] at hbase_cases
  have hbase_post := setFCD_post fs0 ('.' :: '/' :: nm) (aggregatorContent st1)
  rw [hsd] at hbase_post
  have hbase_read : ∀ f', f' ≠ '.' :: '/' :: nm →
      readFile? base f' = readFile? fs0 f' := by
    intro f' hf'
    have h := setFCD_read_other fs0 ('.' :: '/' :: nm) (aggregatorContent st1) f' hf'
    rw [hsd] at h
    exact h
  have hinv0 : modifyInv P opts st1.exportedFields nm fs0 base (fun _ => False) base :=
    ⟨rfl, rfl, fun f hf => Or.inl (hbase_read f hf), fun _ hf => hf.elim⟩
  obtain ⟨fs1, n1, hfold1, hinvF⟩ := modifyRootsFold P opts st1.exportedFields nm
    fs0 base opts.modifyPaths (fun _ => False) base wa hout hnm hplain hbase_cases
    (fun r hr => hagg r (List.mem_append.mpr (Or.inr hr)))
    (fun r hr f hf =>
      ⟨mem_keys_of_mem_getAllFiles fs0 _ f hf, hmod r hr f hf⟩) hinv0
  have hrun1 : onPreInit P opts fs0 = some (fs1, n1) := by
    unfold onPreInit
    rw [hst1]
    dsimp only
    rw [hout]
    dsimp only
    rw [hsd]
    exact hfold1
  obtain ⟨hkeysF, haggF, hlinkF, hdoneF⟩ := hinvF
  have hcoll2 : ∀ r, rootAvoidsAgg nm r →
      getAllFiles fs1 (purgePath r) = getAllFiles fs0 (purgePath r) := by
    intro r hr
    rw [getAllFiles_congr fs1 base _ hkeysF]
    exact getAllFiles_base fs0 base nm r hbase_cases hr.1 hr.2
  have himp2 : runImportPhase P opts fs1 = runImportPhase P opts fs0 := by
    apply runImportPhase_congr
    · intro r hr
      exact hcoll2 r (hagg r (List.mem_append.mpr (Or.inl hr)))
    · intro r hr f hf
      have hfm : f ∈ getAllFiles fs0 (purgePath r) := (mem_sortCmp _ _ _).mp hf
      have hra := hagg r (List.mem_append.mpr (Or.inl hr))
      have hne : f ≠ '.' :: '/' :: nm :=
        getAllFiles_mem_ne fs0 _ f _ hfm hra.1 hra.2
      rcases hlinkF f hne with hsame | hstab
      · rw [hsame]
      · obtain ⟨c0, c1, h0, h1, hpurge, _, _⟩ := hstab
        rw [h1, h0, Option.getD_some, Option.getD_some]
        exact getExportedFields_false_congr P (optionLines opts) c1 c0 hpurge
  have hagg2 : setFileContentIfDifferent fs1 ('.' :: '/' :: nm)
      (aggregatorContent st1) none = (fs1, 0) := by
    apply setFCD_nowrite
    rw [haggF]
    exact hbase_post
  have hmod2 : ∀ r ∈ opts.modifyPaths,
      ∀ f ∈ sortCmp compareFileOrder (getAllFiles fs1 (purgePath r)),
      modifyFile P opts st1.exportedFields fs1 f = some (fs1, 0) := by
    intro r hr f hf
    have hra := hagg r (List.mem_append.mpr (Or.inr hr))
    rw [hcoll2 r hra] at hf
    have hfm : f ∈ getAllFiles fs0 (purgePath r) := (mem_sortCmp _ _ _).mp hf
    obtain ⟨c0, c1, h0, h1, hpurge, hmfc, _⟩ := hdoneF f (Or.inr ⟨r, hr, hfm⟩)
    rw [modifyFile_eq_content, h1]
    rw [show (some c1).getD ([] : Str) = c1 from rfl]
    rw [hmfc]
    rfl
  have hrun2 : onPreInit P opts fs1 = some (fs1, 0) := by
    unfold onPreInit
    rw [himp2, hst1]
    dsimp only
    rw [hout]
    dsimp only
    rw [hagg2]
    exact modifyRootsFold_nowrite P opts st1.exportedFields opts.modifyPaths fs1 0 hmod2
  exact ⟨fs1, n1, hrun1, hrun2⟩

theorem claim1_witness :
    ∃ fs1 n1, onPreInit wParser wOpts wFs = some (fs1, n1)
      ∧ onPreInit wParser wOpts fs1 = some (fs1, 0) :=
  claim1_theorem wParser wOpts wFs ("imports.js".toList)
    (by decide)
    (by decide)
    (by
      intro c nodes h
      by_cases hc : c = "export const A = 1;".toList
      · rw [show wParser c = some [BabelNode.mk ("ExportNamedDeclaration".toList) none
            (some [BabelDeclarator.mk (some ("A".toList)) none none])] from by
          unfold wParser
          rw [if_pos hc]] at h
        obtain rfl := Option.some.inj h
        decide
      · rw [show wParser c = some [] from by
          unfold wParser
          rw [if_neg hc]] at h
        obtain rfl := Option.some.inj h
        decide)
    (fun handler h => Option.noConfusion h)
    (by decide)
    (by decide)
    (by decide)

end AutoImporter
